import Mathlib

/-!
PostGIS Raster driver tools (`postgisrastertools.cpp`).

A shallow embedding of the helper functions of the PostGIS Raster driver:
the pixel-type codec (`TranslateDataType`, `TranslateDataTypeGDALtoPostGIS`),
the SQL literal builder (`EscapeString`), the quote translations
(`ReplaceQuotes`, `ReplaceSingleQuotes`) and the connection-string parser
(`ParseConnectionString`), followed by the properties established about them.

Conventions of the embedding.

* A C string is the list of its bytes before the terminating NUL; a byte is a
  natural number (`unsigned char` value).
* A pointer argument that may be `NULL` is an `Option`.
* `int` arithmetic that can leave the 32-bit range is wrapped explicitly
  (`wrapInt32`); `/` on `int` is `Int.tdiv` (C division truncates toward zero).
-/

namespace PostGISRaster

/-! ## Strings -/

/-- A C string: the bytes that precede its terminating NUL. -/
abbrev CString := List Nat

/-- The bytes of an ASCII string literal of the source text. -/
def lit (s : String) : CString := s.toList.map Char.toNat

/-- The C string found at an address: the bytes of `mem` up to the first NUL. -/
def cstrAt (mem : List Nat) : CString := mem.takeWhile (fun b => b != 0)

/-- The function `tolower` of the C locale on one byte. -/
def toLowerAscii (b : Nat) : Nat := if 65 ≤ b ∧ b ≤ 90 then b + 32 else b

/-- Modelled from the spec: the macro `EQUALN(a, b, n)` of `cpl_port.h` (absent
from src/), which is `strncasecmp(a, b, n) == 0`: the two strings agree,
ignoring ASCII case, on their first `n` bytes, a string that ends earlier
agreeing only with a string that ends at the same place. -/
def EQUALN : CString → CString → Nat → Bool
  | _, _, 0 => true
  | [], [], _ + 1 => true
  | a :: as, b :: bs, n + 1 => toLowerAscii a == toLowerAscii b && EQUALN as bs n
  | _, _, _ + 1 => false

/-- Modelled from the spec: the macro `EQUAL(a, b)` of `cpl_port.h` (absent from
src/), which is `strcasecmp(a, b) == 0`: the two strings have the same length
and agree byte for byte ignoring ASCII case. -/
def EQUAL : CString → CString → Bool
  | [], [] => true
  | a :: as, b :: bs => toLowerAscii a == toLowerAscii b && EQUAL as bs
  | _, _ => false

/-- The string `s` begins with `c`, ignoring ASCII case: the first `|c|` bytes
of `s` exist and equal those of `c` once both are lower-cased. -/
def startsWithCI (s c : CString) : Prop :=
  (s.take c.length).map toLowerAscii = c.map toLowerAscii

instance (s c : CString) : Decidable (startsWithCI s c) := by
  unfold startsWithCI; infer_instance

/-! ## Pixel types -/

/-- Modelled from the spec: the enumeration `GDALDataType` of `gdal.h` (absent
from src/), with the base types the codec knows and the complex types it does
not. -/
inductive GDALDataType
  | GDT_Unknown | GDT_Byte | GDT_UInt16 | GDT_Int16 | GDT_UInt32 | GDT_Int32
  | GDT_Float32 | GDT_Float64 | GDT_CInt16 | GDT_CInt32 | GDT_CFloat32 | GDT_CFloat64
  deriving DecidableEq, Repr

open GDALDataType

/-- The integer value of each enumerator, in declaration order from 0. -/
def GDALDataType.toNat : GDALDataType → Nat
  | GDT_Unknown => 0 | GDT_Byte => 1 | GDT_UInt16 => 2 | GDT_Int16 => 3
  | GDT_UInt32 => 4 | GDT_Int32 => 5 | GDT_Float32 => 6 | GDT_Float64 => 7
  | GDT_CInt16 => 8 | GDT_CInt32 => 9 | GDT_CFloat32 => 10 | GDT_CFloat64 => 11

/-- The eleven pixel-type codes `TranslateDataType` tests, in source order, each
with the descriptor of the specification table. -/
def pixelTypeTable : List (CString × GDALDataType × Int × Bool) :=
  [ (lit "1BB", GDT_Byte, 1, false), (lit "2BUI", GDT_Byte, 2, false),
    (lit "4BUI", GDT_Byte, 4, false), (lit "8BUI", GDT_Byte, 8, false),
    (lit "8BSI", GDT_Byte, 8, true), (lit "16BSI", GDT_Int16, 16, false),
    (lit "16BUI", GDT_UInt16, 16, false), (lit "32BSI", GDT_Int32, 32, false),
    (lit "32BUI", GDT_UInt32, 32, false), (lit "32BF", GDT_Float32, 32, false),
    (lit "64BF", GDT_Float64, 64, false) ]

/-- The eleven pixel-type codes. -/
def pixelTypeCodes : List CString := pixelTypeTable.map Prod.fst

/-- The three output parameters of `TranslateDataType`. A slot is `none` when
the caller passes `NULL` for it and `some v` when it passes the address of a
variable that currently holds `v`. -/
structure OutSlots where
  poDataType : Option GDALDataType
  pnBitsDepth : Option Int
  pbSignedByte : Option Bool
  deriving DecidableEq, Repr

/-- The guarded store `if (p) *p = v;`. -/
def store {α : Type} (p : Option α) (v : α) : Option α :=
  match p with
  | none => none
  | some _ => some v

/-- The body of one recognised branch of `TranslateDataType`:
`if (pnBitsDepth) *pnBitsDepth = bits; if (poDataType) *poDataType = ty;`. -/
def setDepthAndType (out : OutSlots) (bits : Int) (ty : GDALDataType) : OutSlots :=
  { out with pnBitsDepth := store out.pnBitsDepth bits,
             poDataType := store out.poDataType ty }

/-- The function `TranslateDataType` (source lines 122-226): the return value
and the contents of the output slots after the call. -/
def TranslateDataType (pszDataType : Option CString) (out : OutSlots) : Bool × OutSlots :=
  match pszDataType with
  | none => (false, out)
  | some s =>
    let out := { out with pbSignedByte := store out.pbSignedByte false }
    if EQUALN s (lit "1BB") 3 then (true, setDepthAndType out 1 GDT_Byte)
    else if EQUALN s (lit "2BUI") 4 then (true, setDepthAndType out 2 GDT_Byte)
    else if EQUALN s (lit "4BUI") 4 then (true, setDepthAndType out 4 GDT_Byte)
    else if EQUALN s (lit "8BUI") 4 then (true, setDepthAndType out 8 GDT_Byte)
    else if EQUALN s (lit "8BSI") 4 then
      let out := setDepthAndType out 8 GDT_Byte
      (true, { out with pbSignedByte := store out.pbSignedByte true })
    else if EQUALN s (lit "16BSI") 5 then (true, setDepthAndType out 16 GDT_Int16)
    else if EQUALN s (lit "16BUI") 5 then (true, setDepthAndType out 16 GDT_UInt16)
    else if EQUALN s (lit "32BSI") 5 then (true, setDepthAndType out 32 GDT_Int32)
    else if EQUALN s (lit "32BUI") 5 then (true, setDepthAndType out 32 GDT_UInt32)
    else if EQUALN s (lit "32BF") 4 then (true, setDepthAndType out 32 GDT_Float32)
    else if EQUALN s (lit "64BF") 4 then (true, setDepthAndType out 64 GDT_Float64)
    else (false, setDepthAndType out (-1) GDT_Unknown)

/-- The result of `TranslateDataType` when all three slots are requested. -/
def allRequested (a : GDALDataType) (b : Int) (c : Bool) : OutSlots :=
  { poDataType := some a, pnBitsDepth := some b, pbSignedByte := some c }

/-! ## Encoding a pixel type -/

/-- An address of the string heap. -/
abbrev Ptr := Nat

/-- The strings the program can reach through `char *` pointers: the block at
address `p` is `blocks[p]`. -/
structure Heap where
  blocks : List CString
  deriving DecidableEq, Repr

/-- The library routine `CPLStrdup`: a fresh block holding a copy of `s`, whose
address is returned. No existing block is touched. -/
def CPLStrdup (h : Heap) (s : CString) : Heap × Ptr :=
  ({ blocks := h.blocks ++ [s] }, h.blocks.length)

/-- The four bytes of an `int` (the representation of an enumeration value) that
holds `v`, in memory order. -/
def int32Bytes (bigEndian : Bool) (v : Nat) : List Nat :=
  let le := [v % 256, v / 256 % 256, v / 65536 % 256, v / 16777216 % 256]
  if bigEndian then le.reverse else le

/-- The memory a `GDALDataType *` points to when the pointed variable holds `t`:
the bytes of its integer value, followed by whatever memory comes next. -/
def memOfDataType (bigEndian : Bool) (t : GDALDataType) (next : List Nat) : List Nat :=
  int32Bytes bigEndian t.toNat ++ next

/-- What `TranslateDataTypeGDALtoPostGIS` leaves behind: its return value, the
heap, and the final value of its own (by-value) parameter `pszDataType`. -/
structure EncodeResult where
  ret : Bool
  heap : Heap
  pszDataType : Option Ptr
  deriving DecidableEq, Repr

/-- One recognised branch of `TranslateDataTypeGDALtoPostGIS`:
`pszDataType = CPLStrdup(code);` and, after the chain, `return true;`. -/
def assignCode (h : Heap) (code : CString) : EncodeResult :=
  let r := CPLStrdup h code
  { ret := true, heap := r.1, pszDataType := some r.2 }

/-- The function `TranslateDataTypeGDALtoPostGIS` (source lines 232-270).
`poDataType` is `none` for a null pointer and otherwise the memory found at the
pointer; the source reads that memory as a C string (`(char *)poDataType`) and
compares it with the enumerator names. -/
def TranslateDataTypeGDALtoPostGIS (h : Heap) (pszDataType : Option Ptr)
    (poDataType : Option (List Nat)) : EncodeResult :=
  match poDataType with
  | none => { ret := false, heap := h, pszDataType := pszDataType }
  | some mem =>
    let s := cstrAt mem
    if EQUAL s (lit "GDT_Byte") then assignCode h (lit "8BUI")
    else if EQUAL s (lit "GDT_Int16") then assignCode h (lit "16BSI")
    else if EQUAL s (lit "GDT_UInt16") then assignCode h (lit "16BUI")
    else if EQUAL s (lit "GDT_Int32") then assignCode h (lit "32BSI")
    else if EQUAL s (lit "GDT_UInt32") then assignCode h (lit "32BUI")
    else if EQUAL s (lit "GDT_Float32") then assignCode h (lit "32BF")
    else if EQUAL s (lit "GDT_Float64") then assignCode h (lit "64BF")
    else { ret := false, heap := h, pszDataType := pszDataType }

/-- The string the caller finds through its own pointer `p` in heap `h`. -/
def callerString (h : Heap) (p : Ptr) : Option CString := h.blocks.get? p

/-- The seven base types that have a code. -/
def baseTypes : List GDALDataType :=
  [GDT_Byte, GDT_Int16, GDT_UInt16, GDT_Int32, GDT_UInt32, GDT_Float32, GDT_Float64]

/-- Encoding the type held by a variable and then decoding the code the caller
has in its buffer `p`: the decoded base type when both steps succeed. -/
def encodeThenDecode (bigEndian : Bool) (next : List Nat) (h : Heap) (p : Ptr)
    (t : GDALDataType) : Option GDALDataType :=
  let e := TranslateDataTypeGDALtoPostGIS h (some p) (some (memOfDataType bigEndian t next))
  if e.ret then
    let d := TranslateDataType (callerString e.heap p) (allRequested GDT_Unknown 0 false)
    if d.1 then d.2.poDataType else none
  else none

/-! ## Building a SQL literal -/

/-- The function `CPLStrlenUTF8`, whose text the source quotes at lines 273-280
(the library provides it): the number of bytes that are not of the form
`10xxxxxx`, which is the number of code points of a UTF-8 string. -/
def CPLStrlenUTF8 (pszUTF8Str : CString) : Nat :=
  match pszUTF8Str with
  | [] => 0
  | b :: rest => if b &&& 0xc0 != 0x80 then CPLStrlenUTF8 rest + 1 else CPLStrlenUTF8 rest

/-- The value a 32-bit two's-complement `int` holds after an operation whose
mathematical result is `x`. -/
def wrapInt32 (x : Int) : Int := (x + 2147483648) % 4294967296 - 2147483648

/-- The conversion of an `int` to `size_t` (64 bits). -/
def toSizeT (n : Int) : Nat := (n % 18446744073709551616).toNat

/-- The loop `while (nSrcLen > 0 && ((unsigned char *) pszStrValue)[nSrcLen-1] > 127) nSrcLen--;`
for a positive or zero `nSrcLen`. The byte at index `length` is the NUL. -/
def backupLoop (pszStrValue : CString) : Nat → Nat
  | 0 => 0
  | n + 1 => if pszStrValue.getD n 0 > 127 then backupLoop pszStrValue n else n + 1

/-- The same loop for any `int`: a value that is not positive is left as it is. -/
def backUp (pszStrValue : CString) (nSrcLen : Int) : Int :=
  if nSrcLen > 0 then (backupLoop pszStrValue nSrcLen.toNat : Nat) else nSrcLen

/-- The condition of source line 301 under which the value is cut. -/
def truncationApplies (pszStrValue : CString) (nMaxLength : Int) : Prop :=
  nMaxLength > 0 ∧ wrapInt32 (CPLStrlenUTF8 pszStrValue) > nMaxLength

instance (v : CString) (m : Int) : Decidable (truncationApplies v m) := by
  unfold truncationApplies; infer_instance

/-- The value of `nSrcLen` when source line 316 is reached (lines 298-314). -/
def finalSrcLen (pszStrValue : CString) (nMaxLength : Int) : Int :=
  let nSrcLen : Int := wrapInt32 pszStrValue.length
  let nSrcLenUTF : Int := wrapInt32 (CPLStrlenUTF8 pszStrValue)
  if nMaxLength > 0 ∧ nSrcLenUTF > nMaxLength then
    let nSrcLen := (wrapInt32 (nSrcLen * nMaxLength)).tdiv nSrcLenUTF
    backUp pszStrValue nSrcLen
  else nSrcLen

/-- The bytes of the value that are handed to the escaper: the escaping routine
receives `pszStrValue` and the length `(size_t) nSrcLen` and reads that many
bytes, or up to the end of the string when there are fewer. Whether there is a
destination buffer for what it writes is decided in `EscapeString`. -/
def keptBytes (pszStrValue : CString) (nMaxLength : Int) : CString :=
  pszStrValue.take (toSizeT (finalSrcLen pszStrValue nMaxLength))

/-- What the escaping routine produces: the C string it writes to `pszDestStr`
and the error indicator it stores in `nError`. -/
structure EscapeOutcome where
  dest : CString
  nError : Int
  deriving DecidableEq, Repr

/-- The escaping routine of a connection (`PQescapeStringConn` on `hPGConn`), as
a function of the bytes it is handed. -/
abbrev Escaper := CString → EscapeOutcome

/-- The size requested for the destination buffer at source line 316, the `int`
expression `2 * nSrcLen + 1`. -/
def destBufferSize (nSrcLen : Int) : Int := wrapInt32 (2 * nSrcLen + 1)

/-- The text `osCommand` built by source lines 292-342 from what the escaping
routine produced. `hasEscapeStringConn` is the build setting
`PG_HAS_PQESCAPESTRINGCONN`; without it the routine `PQescapeString` is called,
whose result is appended unconditionally. Byte 39 is the single quote. -/
def quotedLiteral (hasEscapeStringConn : Bool) (r : EscapeOutcome) : CString :=
  let osCommand : CString := [39]
  let osCommand :=
    if hasEscapeStringConn then
      if r.nError = 0 then osCommand ++ r.dest else osCommand
    else osCommand ++ r.dest
  osCommand ++ [39]

/-- The function `EscapeString` (source lines 287-345): `some` of the literal
returned, or `none` where the call does not return. The escaping routine writes
into the buffer `CPLMalloc(2 * nSrcLen + 1)` of line 316; there is such a buffer,
large enough for what the routine writes, only when `nSrcLen` is not negative and
the size requested is positive as an `int`. Otherwise (a negative `nSrcLen` after
the product of line 306 has wrapped, or a size that leaves the `int` range) the
allocation yields no buffer, the routine writes through a null pointer and the
call does not return. The table and field names only appear in diagnostics and
are left out. -/
def EscapeString (hasEscapeStringConn : Bool) (escape : Escaper)
    (pszStrValue : CString) (nMaxLength : Int) : Option CString :=
  let nSrcLen := finalSrcLen pszStrValue nMaxLength
  if 0 ≤ nSrcLen ∧ 0 < destBufferSize nSrcLen then
    some (quotedLiteral hasEscapeStringConn (escape (keptBytes pszStrValue nMaxLength)))
  else none

/-- Modelled from the spec: the escaping of `PQescapeStringConn` (libpq, absent
from src/): every single quote of the input is doubled, and every backslash too
unless the connection uses standard-conforming strings; no error is reported. -/
def pqEscapeBytes (standardConforming : Bool) : CString → CString
  | [] => []
  | b :: rest =>
    if b = 39 then 39 :: 39 :: pqEscapeBytes standardConforming rest
    else if b = 92 ∧ standardConforming = false then
      92 :: 92 :: pqEscapeBytes standardConforming rest
    else b :: pqEscapeBytes standardConforming rest

/-- The escaper of a connection that applies `pqEscapeBytes` and succeeds. -/
def pqEscaper (standardConforming : Bool) : Escaper :=
  fun s => { dest := pqEscapeBytes standardConforming s, nError := 0 }

/-- The text of a literal between its first and its last byte. -/
def literalPayload (literal : CString) : CString := literal.tail.dropLast

/-- The lengths of the maximal runs of single quotes of a text, in order, given
that `k` single quotes immediately precede it. -/
def quoteRunsFrom : Nat → CString → List Nat
  | k, [] => if k = 0 then [] else [k]
  | k, b :: rest =>
    if b = 39 then quoteRunsFrom (k + 1) rest
    else if k = 0 then quoteRunsFrom 0 rest
    else k :: quoteRunsFrom 0 rest

/-- The lengths of the maximal runs of single quotes of a text. -/
def quoteRuns (s : CString) : List Nat := quoteRunsFrom 0 s

/-- A byte of the form `10xxxxxx`: a continuation byte of a multi-byte sequence. -/
def isContinuation (b : Nat) : Bool := 0x80 ≤ b && b ≤ 0xBF

/-- Well-formed UTF-8 (Unicode standard, table 3-7): a sequence of code points,
each encoded in its shortest form, outside the surrogate range and at most
U+10FFFF. -/
def utf8Valid : List Nat → Bool
  | [] => true
  | b0 :: rest =>
    if b0 < 0x80 then utf8Valid rest
    else match rest with
      | [] => false
      | b1 :: rest1 =>
        if 0xC2 ≤ b0 ∧ b0 ≤ 0xDF then isContinuation b1 && utf8Valid rest1
        else match rest1 with
          | [] => false
          | b2 :: rest2 =>
            if 0xE0 ≤ b0 ∧ b0 ≤ 0xEF then
              isContinuation b1 && isContinuation b2
                && (b0 != 0xE0 || 0xA0 ≤ b1) && (b0 != 0xED || b1 ≤ 0x9F)
                && utf8Valid rest2
            else match rest2 with
              | [] => false
              | b3 :: rest3 =>
                0xF0 ≤ b0 && b0 ≤ 0xF4
                  && isContinuation b1 && isContinuation b2 && isContinuation b3
                  && (b0 != 0xF0 || 0x90 ≤ b1) && (b0 != 0xF4 || b1 ≤ 0x8F)
                  && utf8Valid rest3

/-- A value of 79998 letters `a` followed by one two-byte character (U+00E9,
bytes C3 A9): 80000 bytes, 79999 code points, well-formed UTF-8. -/
def longAccentedValue : CString := List.replicate 79998 0x61 ++ [0xC3, 0xA9]

/-- A value of 80000 letters `a`. -/
def longAsciiValue : CString := List.replicate 80000 0x61

/-! ## Quote translation and the connection string -/

/-- The loop of `ReplaceQuotes` and `ReplaceSingleQuotes` for a length that is not
negative: byte `i` of the output is `new` where byte `i` of the input is `old`, and
the input byte otherwise. The output buffer is zero-filled, so the string returned
ends where the terminator of the input is copied: bytes read after the end of the
input cannot change it. -/
def replaceBytes (old new : Nat) (pszInput : CString) (nLength : Nat) : CString :=
  (List.range (min nLength pszInput.length)).map
    (fun i => if pszInput.getD i 0 = old then new else pszInput.getD i 0)

/-- The function `ReplaceQuotes` (source lines 44-61): double quotes (byte 34)
become single quotes (byte 39). The result is `none` when the length is negative
after `-1` has been replaced by the length of the input (received in an `int`):
there is no buffer of `nLength + 1` bytes then. -/
def ReplaceQuotes (pszInput : CString) (nLength : Int) : Option CString :=
  let nLength := if nLength = -1 then wrapInt32 pszInput.length else nLength
  if nLength < 0 then none else some (replaceBytes 34 39 pszInput nLength.toNat)

/-- The function `ReplaceSingleQuotes` (source lines 68-86): single quotes (byte
39) become double quotes (byte 34). -/
def ReplaceSingleQuotes (pszInput : CString) (nLength : Int) : Option CString :=
  let nLength := if nLength = -1 then wrapInt32 pszInput.length else nLength
  if nLength < 0 then none else some (replaceBytes 39 34 pszInput nLength.toNat)

/-- The buffer allocation of the two functions, seen on the heap: the string
built from the block at `pszInput` is stored in a new block, whose address is
returned. -/
def replaceOnHeap (f : CString → Int → Option CString) (h : Heap) (pszInput : Ptr)
    (nLength : Int) : Option (Heap × Ptr) :=
  match h.blocks.get? pszInput with
  | none => none
  | some s =>
    match f s nLength with
    | none => none
    | some out => some (CPLStrdup h out)

/-- The step `if (pszToken[0] != 0) AddString(pszToken)` of the tokenizer: an
empty token is not added. -/
def emitToken (tok : CString) (later : List CString) : List CString :=
  if tok = [] then later else tok :: later

/-- The scanning loop of the tokenizer. `inString` says whether a double quote is
open, `tok` is the token collected so far. -/
def tokenizeFrom : Bool → CString → CString → List CString
  | _, tok, [] => emitToken tok []
  | inString, tok, c :: rest =>
    if inString = false ∧ c = 32 then emitToken tok (tokenizeFrom false [] rest)
    else if c = 34 then tokenizeFrom (!inString) tok rest
    else if inString = true ∧ c = 92 then
      match rest with
      | [] => tokenizeFrom inString (tok ++ [c]) []
      | d :: rest2 =>
        if d = 34 ∨ d = 92 then tokenizeFrom inString (tok ++ [d]) rest2
        else tokenizeFrom inString (tok ++ [c]) (d :: rest2)
    else tokenizeFrom inString (tok ++ [c]) rest

/-- Modelled from the spec: the routine `CSLTokenizeString2` of the GDAL string
library (absent from src/), for the arguments the source passes, the delimiter
`" "` and the flag `CSLT_HONOURSTRINGS`. The text is split at spaces (byte 32); a
double quote (byte 34) opens or closes a quoted string, inside which a space does
not split, and is not copied to the token; inside a quoted string a backslash
(byte 92) before a double quote or a backslash is dropped and the next byte is
copied as it is; empty tokens are not returned. Tokens come in order of
appearance. -/
def CSLTokenizeString2 (pszString : CString) : List CString :=
  tokenizeFrom false [] pszString

/-- The expression `strstr(s, ":") + 1`: the text after the first colon (byte
58), and `none` when there is no colon (the source then adds 1 to a null
pointer). -/
def afterFirstColon (s : CString) : Option CString :=
  match s.dropWhile (fun b => b != 58) with
  | [] => none
  | _ :: rest => some rest

/-- The string `ParseConnectionString` hands to the tokenizer (source lines
101-106). -/
def tokenizerInput (pszConnectionString : CString) : Option CString :=
  (ReplaceSingleQuotes pszConnectionString (-1)).bind afterFirstColon

/-- The function `ParseConnectionString` (source lines 97-116): the list of
tokens returned, or `none` where the source has no defined result. -/
def ParseConnectionString (pszConnectionString : CString) : Option (List CString) :=
  (tokenizerInput pszConnectionString).map CSLTokenizeString2

/-- A piece of a token of a connection string: plain text, or text wrapped in
quotes (double quotes when the flag is true, single quotes otherwise). -/
inductive Segment
  | plain (text : CString)
  | quoted (doubleQuotes : Bool) (text : CString)
  deriving DecidableEq, Repr

/-- The text of a segment as written in the descriptor. -/
def Segment.render : Segment → CString
  | .plain w => w
  | .quoted dq q => (if dq then 34 else 39) :: (q ++ [if dq then 34 else 39])

/-- The text a segment contributes to its token: the quotes are gone. -/
def Segment.content : Segment → CString
  | .plain w => w
  | .quoted _ q => q

/-- A segment is well formed when plain text has no space, quote or backslash and
quoted text has no quote or backslash. -/
def Segment.wellFormed : Segment → Prop
  | .plain w => ∀ b ∈ w, b ≠ 32 ∧ b ≠ 34 ∧ b ≠ 39 ∧ b ≠ 92
  | .quoted _ q => ∀ b ∈ q, b ≠ 34 ∧ b ≠ 39 ∧ b ≠ 92

/-- The text of an item (the segments of one token) as written. -/
def renderItem (item : List Segment) : CString := (item.map Segment.render).flatten

/-- The token an item stands for. -/
def itemToken (item : List Segment) : CString := (item.map Segment.content).flatten

/-- Items written one after the other; each item comes with the number of spaces
that follow its separating space (ignored after the last item). -/
def renderItems : List (List Segment × Nat) → CString
  | [] => []
  | [(item, _)] => renderItem item
  | (item, gap) :: more => renderItem item ++ List.replicate (gap + 1) 32 ++ renderItems more

/-- A descriptor: a prefix, a colon, leading spaces, the items, trailing spaces. -/
def descriptor (pfx : CString) (lead : Nat) (items : List (List Segment × Nat))
    (trail : Nat) : CString :=
  pfx ++ [58] ++ List.replicate lead 32 ++ renderItems items ++ List.replicate trail 32

/-- The descriptor of the example of the specification,
`PG:host=localhost user=foo password=` followed by `a b` in single quotes. -/
def exampleDescriptor : CString :=
  lit "PG:host=localhost user=foo password=" ++ [39] ++ lit "a b" ++ [39]

instance (seg : Segment) : Decidable seg.wellFormed := by
  cases seg <;> unfold Segment.wellFormed <;> infer_instance

/-- The descriptor `PG:a=` followed by `b c` in double quotes. -/
def doubleQuotedDescriptor : CString := lit "PG:a=" ++ [34] ++ lit "b c" ++ [34]

/-- A row of the decoding table: code, base type, bit depth, signed-byte flag. -/
abbrev TableRow := CString × GDALDataType × Int × Bool

/-- The test `EQUALN(pszDataType, code, strlen(code))` for the code of a row. -/
def rowMatches (s : CString) (row : TableRow) : Bool := EQUALN s row.1 row.1.length

/-- A decoder that, after the null check of the source, tests the rows of a table
in the order given, each with the prefix test of the source, and writes the
descriptor of the first row whose code matches (or Unknown, -1 and false when
none does): `TranslateDataType` with its eleven tests arranged in another
order. -/
def decodeWith (table : List TableRow) (pszDataType : Option CString) (out : OutSlots) :
    Bool × OutSlots :=
  match pszDataType with
  | none => (false, out)
  | some s =>
    match table.find? (rowMatches s) with
    | some row =>
      (true, { poDataType := store out.poDataType row.2.1,
               pnBitsDepth := store out.pnBitsDepth row.2.2.1,
               pbSignedByte := store out.pbSignedByte row.2.2.2 })
    | none =>
      (false, { poDataType := store out.poDataType GDT_Unknown,
                pnBitsDepth := store out.pnBitsDepth (-1),
                pbSignedByte := store out.pbSignedByte false })

/-- One pass through the test and the body of the back-up loop of `EscapeString`
(source lines 309-313), for a length that is not negative: the length decreases by
one when it is positive and the byte before it is above 127, and stays otherwise
(the loop is then left). -/
def backupStep (pszStrValue : CString) (nSrcLen : Nat) : Nat :=
  if nSrcLen > 0 ∧ pszStrValue.getD (nSrcLen - 1) 0 > 127 then nSrcLen - 1 else nSrcLen

/-- The descriptor `PG:host=h password='a "b c" d' user=u`: a value in single
quotes that contains spaces and double quotes. -/
def nestedQuoteDescriptor : CString :=
  lit "PG:host=h password=" ++ [39] ++ lit "a " ++ [34] ++ lit "b c" ++ [34] ++ lit " d"
    ++ [39] ++ lit " user=u"

/-! ## Properties of the decoder -/

/-- The prefix test of the source agrees with `startsWithCI` when the length
passed is the length of the candidate. -/
theorem EQUALN_length_iff (c s : CString) :
    EQUALN s c c.length = true ↔ startsWithCI s c := by
  induction c generalizing s with
  | nil => simp [EQUALN, startsWithCI]
  | cons b bs ih =>
    cases s with
    | nil => simp [EQUALN, startsWithCI]
    | cons a as =>
      have h := ih as
      simp only [startsWithCI] at h
      simp [EQUALN, startsWithCI, h]

/-- A string that does not begin with the candidate fails the prefix test. -/
theorem EQUALN_eq_false (c s : CString) (h : ¬ startsWithCI s c) :
    EQUALN s c c.length = false := by
  cases hE : EQUALN s c c.length with
  | false => rfl
  | true => exact absurd ((EQUALN_length_iff c s).mp hE) h

/-- C1: called with one of the eleven codes and all three output slots
requested, whatever the slots held before, `TranslateDataType` returns true and
the slots hold the row of the mapping table for that code. -/
theorem TranslateDataType_table_rows (a : GDALDataType) (b : Int) (c : Bool) :
    ∀ row ∈ pixelTypeTable,
      TranslateDataType (some row.1) (allRequested a b c)
        = (true, allRequested row.2.1 row.2.2.1 row.2.2.2) := by
  intro row hrow
  simp only [pixelTypeTable, List.mem_cons, List.mem_singleton, List.not_mem_nil,
    or_false] at hrow
  rcases hrow with h | h | h | h | h | h | h | h | h | h | h <;> subst h <;> rfl

/-- Witness of C1: the row of the code 8BSI. -/
theorem TranslateDataType_table_rows_witness :
    (lit "8BSI", GDT_Byte, (8 : Int), true) ∈ pixelTypeTable ∧
    TranslateDataType (some (lit "8BSI")) (allRequested GDT_Float64 64 false)
      = (true, allRequested GDT_Byte 8 true) :=
  ⟨by decide,
   TranslateDataType_table_rows GDT_Float64 64 false (lit "8BSI", GDT_Byte, 8, true) (by decide)⟩

/-- C9: for a non-null string that begins, ignoring case, with none of the eleven
codes, `TranslateDataType` returns false and every requested slot holds
Unknown, -1 and false respectively (a slot that was not requested stays
unrequested). -/
theorem TranslateDataType_unrecognised (s : CString) (out : OutSlots)
    (h : ∀ c ∈ pixelTypeCodes, ¬ startsWithCI s c) :
    TranslateDataType (some s) out
      = (false, { poDataType := store out.poDataType GDT_Unknown,
                  pnBitsDepth := store out.pnBitsDepth (-1),
                  pbSignedByte := store out.pbSignedByte false }) := by
  have h1 : EQUALN s (lit "1BB") 3 = false := EQUALN_eq_false (lit "1BB") s (h _ (by decide))
  have h2 : EQUALN s (lit "2BUI") 4 = false := EQUALN_eq_false (lit "2BUI") s (h _ (by decide))
  have h3 : EQUALN s (lit "4BUI") 4 = false := EQUALN_eq_false (lit "4BUI") s (h _ (by decide))
  have h4 : EQUALN s (lit "8BUI") 4 = false := EQUALN_eq_false (lit "8BUI") s (h _ (by decide))
  have h5 : EQUALN s (lit "8BSI") 4 = false := EQUALN_eq_false (lit "8BSI") s (h _ (by decide))
  have h6 : EQUALN s (lit "16BSI") 5 = false := EQUALN_eq_false (lit "16BSI") s (h _ (by decide))
  have h7 : EQUALN s (lit "16BUI") 5 = false := EQUALN_eq_false (lit "16BUI") s (h _ (by decide))
  have h8 : EQUALN s (lit "32BSI") 5 = false := EQUALN_eq_false (lit "32BSI") s (h _ (by decide))
  have h9 : EQUALN s (lit "32BUI") 5 = false := EQUALN_eq_false (lit "32BUI") s (h _ (by decide))
  have h10 : EQUALN s (lit "32BF") 4 = false := EQUALN_eq_false (lit "32BF") s (h _ (by decide))
  have h11 : EQUALN s (lit "64BF") 4 = false := EQUALN_eq_false (lit "64BF") s (h _ (by decide))
  simp [TranslateDataType, setDepthAndType, h1, h2, h3, h4, h5, h6, h7, h8, h9, h10, h11]

/-- Witness of C9: the string 9XX and the empty string, with all three slots
requested. -/
theorem TranslateDataType_unrecognised_witness :
    (∀ c ∈ pixelTypeCodes, ¬ startsWithCI (lit "9XX") c) ∧
    TranslateDataType (some (lit "9XX")) (allRequested GDT_Float64 64 true)
      = (false, allRequested GDT_Unknown (-1) false) ∧
    TranslateDataType (some []) (allRequested GDT_Float64 64 true)
      = (false, allRequested GDT_Unknown (-1) false) :=
  ⟨by decide,
   TranslateDataType_unrecognised (lit "9XX") (allRequested GDT_Float64 64 true) (by decide),
   TranslateDataType_unrecognised [] (allRequested GDT_Float64 64 true) (by decide)⟩

/-- C10: for a null code `TranslateDataType` returns false without writing to any
slot: the slots hold after the call what they held before, so slots that held
Float64, 64 and true do not hold Unknown, -1 and false. -/
theorem TranslateDataType_null_writes_nothing :
    (∀ out : OutSlots, TranslateDataType none out = (false, out)) ∧
    TranslateDataType none (allRequested GDT_Float64 64 true)
      ≠ (false, allRequested GDT_Unknown (-1) false) := by
  refine ⟨fun _ => rfl, by decide⟩


/-! ## Properties of the encoder -/

/-- Strings that `EQUAL` accepts have the same length. -/
theorem EQUAL_length (s c : CString) (h : EQUAL s c = true) : s.length = c.length := by
  induction s generalizing c with
  | nil => cases c with
    | nil => rfl
    | cons b bs => simp [EQUAL] at h
  | cons a as ih => cases c with
    | nil => simp [EQUAL] at h
    | cons b bs =>
      simp only [EQUAL, Bool.and_eq_true] at h
      simp [ih bs h.2]

/-- A string shorter than the candidate is not accepted by `EQUAL`. -/
theorem EQUAL_eq_false_of_length_lt (s c : CString) (h : s.length < c.length) :
    EQUAL s c = false := by
  cases hE : EQUAL s c with
  | false => rfl
  | true => have := EQUAL_length s c hE; omega

/-- Memory whose C string has fewer than eight bytes matches no enumerator name:
the encoder returns false and allocates nothing. -/
theorem encoder_rejects_short_string (h : Heap) (p : Option Ptr) (mem : List Nat)
    (hlen : (cstrAt mem).length < 8) :
    TranslateDataTypeGDALtoPostGIS h p (some mem)
      = { ret := false, heap := h, pszDataType := p } := by
  have e1 := EQUAL_eq_false_of_length_lt (cstrAt mem) (lit "GDT_Byte")
    (lt_of_lt_of_le hlen (by decide))
  have e2 := EQUAL_eq_false_of_length_lt (cstrAt mem) (lit "GDT_Int16")
    (lt_of_lt_of_le hlen (by decide))
  have e3 := EQUAL_eq_false_of_length_lt (cstrAt mem) (lit "GDT_UInt16")
    (lt_of_lt_of_le hlen (by decide))
  have e4 := EQUAL_eq_false_of_length_lt (cstrAt mem) (lit "GDT_Int32")
    (lt_of_lt_of_le hlen (by decide))
  have e5 := EQUAL_eq_false_of_length_lt (cstrAt mem) (lit "GDT_UInt32")
    (lt_of_lt_of_le hlen (by decide))
  have e6 := EQUAL_eq_false_of_length_lt (cstrAt mem) (lit "GDT_Float32")
    (lt_of_lt_of_le hlen (by decide))
  have e7 := EQUAL_eq_false_of_length_lt (cstrAt mem) (lit "GDT_Float64")
    (lt_of_lt_of_le hlen (by decide))
  simp [TranslateDataTypeGDALtoPostGIS, e1, e2, e3, e4, e5, e6, e7]

/-- The C string found at the address of a variable holding an enumerator has at
most one byte: the value is below 256, so a zero byte of the integer ends the
string at once. -/
theorem cstrAt_memOfDataType_length (bigEndian : Bool) (t : GDALDataType) (next : List Nat) :
    (cstrAt (memOfDataType bigEndian t next)).length ≤ 1 := by
  cases bigEndian <;> cases t <;>
    simp [cstrAt, memOfDataType, int32Bytes, GDALDataType.toNat, List.takeWhile]

/-- C2: handed a pointer to a variable holding any of the seven base types (either
byte order, any memory after the variable), `TranslateDataTypeGDALtoPostGIS`
returns false, allocates no code and leaves its parameter as it was: the bytes of
the enumeration value, read as a string, equal no enumerator name. -/
theorem TranslateDataTypeGDALtoPostGIS_base_types_fail (bigEndian : Bool) (next : List Nat)
    (h : Heap) (p : Option Ptr) :
    ∀ t ∈ baseTypes,
      TranslateDataTypeGDALtoPostGIS h p (some (memOfDataType bigEndian t next))
        = { ret := false, heap := h, pszDataType := p } := by
  intro t _
  exact encoder_rejects_short_string h p _
    (lt_of_le_of_lt (cstrAt_memOfDataType_length bigEndian t next) (by decide))

/-- Witness of C2: a variable holding the type Byte on a little-endian machine,
the caller's buffer at address 0. -/
theorem TranslateDataTypeGDALtoPostGIS_base_types_fail_witness :
    GDT_Byte ∈ baseTypes ∧
    TranslateDataTypeGDALtoPostGIS { blocks := [[]] } (some 0)
        (some (memOfDataType false GDT_Byte []))
      = { ret := false, heap := { blocks := [[]] }, pszDataType := some 0 } :=
  ⟨by decide,
   TranslateDataTypeGDALtoPostGIS_base_types_fail false [] { blocks := [[]] } (some 0)
     GDT_Byte (by decide)⟩

/-- C3: for each of the seven base types, encoding and then decoding yields no
base type at all: the encoding step already returns false. -/
theorem encodeThenDecode_base_types_fail (bigEndian : Bool) (next : List Nat)
    (h : Heap) (p : Ptr) :
    ∀ t ∈ baseTypes, encodeThenDecode bigEndian next h p t = none := by
  intro t _
  have hE := encoder_rejects_short_string h (some p) (memOfDataType bigEndian t next)
    (lt_of_le_of_lt (cstrAt_memOfDataType_length bigEndian t next) (by decide))
  simp [encodeThenDecode, hE]

/-- Witness of C3: the type Float64 on a little-endian machine, the caller's
buffer at address 0 holding the empty string. -/
theorem encodeThenDecode_base_types_fail_witness :
    GDT_Float64 ∈ baseTypes ∧
    encodeThenDecode false [] { blocks := [[]] } 0 GDT_Float64 = none :=
  ⟨by decide,
   encodeThenDecode_base_types_fail false [] { blocks := [[]] } 0 GDT_Float64 (by decide)⟩


/-! ## Properties of the literal builder -/

/-- The payload of a quoted text is the text between the quotes. -/
theorem literalPayload_quoted (s : CString) : literalPayload (39 :: (s ++ [39])) = s := by
  simp [literalPayload]

/-- Escaping keeps every run of single quotes even: if an even number of quotes
precedes the escaped text, every maximal run has even length. -/
theorem quoteRunsFrom_pqEscapeBytes_even (std : Bool) (s : CString) :
    ∀ k, Even k → ∀ r ∈ quoteRunsFrom k (pqEscapeBytes std s), Even r := by
  induction s with
  | nil =>
    intro k hk r hr
    by_cases h0 : k = 0
    · simp [pqEscapeBytes, quoteRunsFrom, h0] at hr
    · simp [pqEscapeBytes, quoteRunsFrom, h0] at hr
      exact hr ▸ hk
  | cons b rest ih =>
    intro k hk r hr
    by_cases hq : b = 39
    · subst hq
      simp only [pqEscapeBytes, quoteRunsFrom, if_true] at hr
      exact ih (k + 1 + 1) (by simpa [Nat.even_add_one] using hk) r hr
    · by_cases hb : b = 92 ∧ std = false
      · obtain ⟨hb1, hb2⟩ := hb
        subst hb1
        subst hb2
        by_cases h0 : k = 0
        · simp [pqEscapeBytes, quoteRunsFrom, h0] at hr
          exact ih 0 (by decide) r hr
        · simp [pqEscapeBytes, quoteRunsFrom, h0] at hr
          rcases hr with hr | hr
          · exact hr ▸ hk
          · exact ih 0 (by decide) r hr
      · by_cases h0 : k = 0
        · simp only [pqEscapeBytes, if_neg hq, if_neg hb, quoteRunsFrom, h0, if_true] at hr
          exact ih 0 (by decide) r hr
        · simp only [pqEscapeBytes, if_neg hq, if_neg hb, quoteRunsFrom, if_neg h0,
            List.mem_cons] at hr
          rcases hr with hr | hr
          · exact hr ▸ hk
          · exact ih 0 (by decide) r hr

/-- Escaping doubles the number of single quotes. -/
theorem count_quote_pqEscapeBytes (std : Bool) (s : CString) :
    (pqEscapeBytes std s).count 39 = 2 * s.count 39 := by
  induction s with
  | nil => simp [pqEscapeBytes]
  | cons b rest ih =>
    by_cases hq : b = 39
    · subst hq
      simp [pqEscapeBytes, ih]
      omega
    · by_cases hb : b = 92 ∧ std = false
      · obtain ⟨hb1, hb2⟩ := hb
        subst hb1
        subst hb2
        simp [pqEscapeBytes, ih]
      · have hq2 : ¬ (b == 39) = true := by simpa using hq
        simp only [pqEscapeBytes, if_neg hq, if_neg hb, List.count_cons, ih, if_neg hq2]
        omega

/-- Leading ASCII letters each count as one code point. -/
theorem CPLStrlenUTF8_replicate_append (n : Nat) (l : CString) :
    CPLStrlenUTF8 (List.replicate n 0x61 ++ l) = n + CPLStrlenUTF8 l := by
  induction n with
  | zero => simp
  | succ k ih =>
    have h : (0x61 &&& 0xc0 != 0x80) = true := by decide
    rw [List.replicate_succ, List.cons_append, CPLStrlenUTF8, if_pos h, ih]
    omega

/-- Leading ASCII letters do not affect well-formedness. -/
theorem utf8Valid_replicate_append (n : Nat) (l : CString) :
    utf8Valid (List.replicate n 0x61 ++ l) = utf8Valid l := by
  induction n with
  | zero => simp
  | succ k ih =>
    rw [List.replicate_succ, List.cons_append, utf8Valid.eq_def]
    simpa using ih

/-- C4: the value `aa` followed by U+1F600 (six bytes, three code points) with
maxChars = 1 is cut, yet the bytes handed to the escaper are `aa`: two code
points, more than maxChars. -/
theorem keptBytes_exceeds_maxChars :
    utf8Valid [0x61, 0x61, 0xF0, 0x9F, 0x98, 0x80] = true ∧
    truncationApplies [0x61, 0x61, 0xF0, 0x9F, 0x98, 0x80] 1 ∧
    CPLStrlenUTF8 [0x61, 0x61, 0xF0, 0x9F, 0x98, 0x80] = 3 ∧
    keptBytes [0x61, 0x61, 0xF0, 0x9F, 0x98, 0x80] 1 = [0x61, 0x61] ∧
    ¬ CPLStrlenUTF8 (keptBytes [0x61, 0x61, 0xF0, 0x9F, 0x98, 0x80] 1) ≤ 1 ∧
    EscapeString true (pqEscaper true) [0x61, 0x61, 0xF0, 0x9F, 0x98, 0x80] 1
      = some [39, 0x61, 0x61, 39] := by
  decide

/-- The length computed for `longAccentedValue` and maxChars = 30000: the product
80000 * 30000 leaves the range of `int` and the quotient is negative. -/
theorem finalSrcLen_longAccentedValue : finalSrcLen longAccentedValue 30000 = -23687 := by
  have hlen : longAccentedValue.length = 80000 := by
    rw [longAccentedValue, List.length_append, List.length_replicate]; rfl
  have hutf : CPLStrlenUTF8 longAccentedValue = 79999 := by
    rw [longAccentedValue, CPLStrlenUTF8_replicate_append]; decide
  unfold finalSrcLen
  rw [hlen, hutf]
  decide

/-- C5: `longAccentedValue` is well-formed UTF-8 and is to be cut to 30000
characters, but the length computed at line 306 is negative, so the escaper is
handed the whole value, whose last byte A9 is a continuation byte. -/
theorem keptBytes_overflow_ends_in_continuation :
    utf8Valid longAccentedValue = true ∧
    truncationApplies longAccentedValue 30000 ∧
    (80000 : Int) * 30000 > 2147483647 ∧
    finalSrcLen longAccentedValue 30000 = -23687 ∧
    keptBytes longAccentedValue 30000 = longAccentedValue ∧
    (keptBytes longAccentedValue 30000).getLast? = some 0xA9 ∧
    isContinuation 0xA9 = true := by
  have hlen : longAccentedValue.length = 80000 := by
    rw [longAccentedValue, List.length_append, List.length_replicate]; rfl
  have hutf : CPLStrlenUTF8 longAccentedValue = 79999 := by
    rw [longAccentedValue, CPLStrlenUTF8_replicate_append]; decide
  have hkept : keptBytes longAccentedValue 30000 = longAccentedValue := by
    unfold keptBytes
    rw [finalSrcLen_longAccentedValue]
    apply List.take_of_length_le
    rw [hlen]; decide
  refine ⟨?_, ?_, by decide, finalSrcLen_longAccentedValue, hkept, ?_, by decide⟩
  · rw [longAccentedValue, utf8Valid_replicate_append]; decide
  · unfold truncationApplies
    rw [hutf]; decide
  · rw [hkept, longAccentedValue, List.getLast?_append]
    rfl

/-- C8: `longAsciiValue` has 80000 code points and is to be cut to 30000, but the
product 80000 * 30000 leaves the range of `int`, the computed length is negative
and every byte of the value is handed to the escaper: nothing is cut. -/
theorem keptBytes_overflow_not_truncated :
    truncationApplies longAsciiValue 30000 ∧
    finalSrcLen longAsciiValue 30000 = -23687 ∧
    keptBytes longAsciiValue 30000 = longAsciiValue := by
  have hlen : longAsciiValue.length = 80000 := by
    rw [longAsciiValue, List.length_replicate]
  have hutf : CPLStrlenUTF8 longAsciiValue = 80000 := by
    have h := CPLStrlenUTF8_replicate_append 80000 []
    rw [List.append_nil] at h
    rw [longAsciiValue, h]; rfl
  have hfin : finalSrcLen longAsciiValue 30000 = -23687 := by
    unfold finalSrcLen
    rw [hlen, hutf]
    decide
  refine ⟨?_, hfin, ?_⟩
  · unfold truncationApplies
    rw [hutf]; decide
  · unfold keptBytes
    rw [hfin]
    apply List.take_of_length_le
    rw [hlen]; decide


/-! ### Cutting well-formed UTF-8 after an ASCII byte -/

/-- A continuation byte is above 127. -/
theorem isContinuation_gt (b : Nat) (h : isContinuation b = true) : 127 < b := by
  simp only [isContinuation, Bool.and_eq_true, decide_eq_true_eq] at h
  omega

/-- Unfolding of `utf8Valid` at a one-byte code point. -/
theorem utf8Valid_cons1 (b0 : Nat) (rest : List Nat) (h0 : b0 < 0x80) :
    utf8Valid (b0 :: rest) = utf8Valid rest := by
  rw [utf8Valid.eq_def]
  simp only [h0, if_true]

/-- Unfolding of `utf8Valid` at a lead byte that is not followed by any byte. -/
theorem utf8Valid_lead_alone (b0 : Nat) (h0 : ¬ b0 < 0x80) : utf8Valid [b0] = false := by
  rw [utf8Valid.eq_def]
  simp only [h0, if_false]

/-- Unfolding of `utf8Valid` at a two-byte code point. -/
theorem utf8Valid_cons2 (b0 b1 : Nat) (rest : List Nat) (h0 : ¬ b0 < 0x80)
    (h1 : 0xC2 ≤ b0 ∧ b0 ≤ 0xDF) :
    utf8Valid (b0 :: b1 :: rest) = (isContinuation b1 && utf8Valid rest) := by
  rw [utf8Valid.eq_def]
  simp only [h0, if_false, h1, and_self, if_true]

/-- Unfolding of `utf8Valid` at a longer lead byte followed by one byte only. -/
theorem utf8Valid_lead_one (b0 b1 : Nat) (h0 : ¬ b0 < 0x80) (h1 : ¬ (0xC2 ≤ b0 ∧ b0 ≤ 0xDF)) :
    utf8Valid [b0, b1] = false := by
  rw [utf8Valid.eq_def]
  simp only [h0, if_false, h1]

/-- Unfolding of `utf8Valid` at a three-byte code point. -/
theorem utf8Valid_cons3 (b0 b1 b2 : Nat) (rest : List Nat) (h0 : ¬ b0 < 0x80)
    (h1 : ¬ (0xC2 ≤ b0 ∧ b0 ≤ 0xDF)) (h2 : 0xE0 ≤ b0 ∧ b0 ≤ 0xEF) :
    utf8Valid (b0 :: b1 :: b2 :: rest)
      = (isContinuation b1 && isContinuation b2
          && (b0 != 0xE0 || 0xA0 ≤ b1) && (b0 != 0xED || b1 ≤ 0x9F) && utf8Valid rest) := by
  rw [utf8Valid.eq_def]
  simp only [h0, if_false, h1, h2, and_self, if_true]

/-- Unfolding of `utf8Valid` at a four-byte lead byte followed by two bytes only. -/
theorem utf8Valid_lead_two (b0 b1 b2 : Nat) (h0 : ¬ b0 < 0x80)
    (h1 : ¬ (0xC2 ≤ b0 ∧ b0 ≤ 0xDF)) (h2 : ¬ (0xE0 ≤ b0 ∧ b0 ≤ 0xEF)) :
    utf8Valid [b0, b1, b2] = false := by
  rw [utf8Valid.eq_def]
  simp only [h0, if_false, h1, h2]

/-- Unfolding of `utf8Valid` at a four-byte code point. -/
theorem utf8Valid_cons4 (b0 b1 b2 b3 : Nat) (rest : List Nat) (h0 : ¬ b0 < 0x80)
    (h1 : ¬ (0xC2 ≤ b0 ∧ b0 ≤ 0xDF)) (h2 : ¬ (0xE0 ≤ b0 ∧ b0 ≤ 0xEF)) :
    utf8Valid (b0 :: b1 :: b2 :: b3 :: rest)
      = (decide (0xF0 ≤ b0) && decide (b0 ≤ 0xF4)
          && isContinuation b1 && isContinuation b2 && isContinuation b3
          && (b0 != 0xF0 || 0x90 ≤ b1) && (b0 != 0xF4 || b1 ≤ 0x8F) && utf8Valid rest) := by
  rw [utf8Valid.eq_def]
  simp only [h0, if_false, h1, h2]

/-- A prefix of a well-formed UTF-8 text that is empty or ends with a byte below
128 is well-formed: such a byte is a whole code point, so the prefix ends on a
code-point boundary. -/
theorem utf8Valid_take (len : Nat) :
    ∀ v : List Nat, v.length ≤ len → utf8Valid v = true →
      ∀ n, (∀ i, n = i + 1 → v.getD i 0 ≤ 127) → utf8Valid (v.take n) = true := by
  induction len with
  | zero =>
    intro v hlen _ n _
    have : v = [] := List.eq_nil_of_length_eq_zero (Nat.le_zero.mp hlen)
    subst this
    rw [List.take_nil]; rfl
  | succ len ih =>
    intro v hlen hv n hend
    cases n with
    | zero => rw [List.take_zero]; rfl
    | succ k =>
      cases v with
      | nil => rw [List.take_nil]; rfl
      | cons b0 rest =>
        rw [List.length_cons] at hlen
        by_cases h0 : b0 < 0x80
        · rw [utf8Valid_cons1 b0 rest h0] at hv
          rw [List.take_succ_cons, utf8Valid_cons1 _ _ h0]
          refine ih rest (by omega) hv k ?_
          intro i hi
          subst hi
          exact hend (i + 1) rfl
        · cases k with
          | zero =>
            have := hend 0 rfl
            simp only [List.getD_cons_zero] at this
            omega
          | succ k =>
            cases rest with
            | nil => rw [utf8Valid_lead_alone b0 h0] at hv; exact absurd hv (by decide)
            | cons b1 rest =>
              rw [List.length_cons] at hlen
              by_cases h1 : 0xC2 ≤ b0 ∧ b0 ≤ 0xDF
              · rw [utf8Valid_cons2 b0 b1 rest h0 h1, Bool.and_eq_true] at hv
                rw [List.take_succ_cons, List.take_succ_cons, utf8Valid_cons2 _ _ _ h0 h1,
                  Bool.and_eq_true]
                refine ⟨hv.1, ih rest (by omega) hv.2 k ?_⟩
                intro i hi
                subst hi
                exact hend (i + 1 + 1) rfl
              · cases k with
                | zero =>
                  have := hend 1 rfl
                  rw [List.getD_cons_succ, List.getD_cons_zero] at this
                  cases rest with
                  | nil => rw [utf8Valid_lead_one b0 b1 h0 h1] at hv; exact absurd hv (by decide)
                  | cons b2 rest =>
                    by_cases h2 : 0xE0 ≤ b0 ∧ b0 ≤ 0xEF
                    · rw [utf8Valid_cons3 b0 b1 b2 rest h0 h1 h2] at hv
                      simp only [Bool.and_eq_true] at hv
                      have := isContinuation_gt b1 hv.1.1.1.1
                      omega
                    · cases rest with
                      | nil =>
                        rw [utf8Valid_lead_two b0 b1 b2 h0 h1 h2] at hv
                        exact absurd hv (by decide)
                      | cons b3 rest =>
                        rw [utf8Valid_cons4 b0 b1 b2 b3 rest h0 h1 h2] at hv
                        simp only [Bool.and_eq_true] at hv
                        have := isContinuation_gt b1 hv.1.1.1.1.1.2
                        omega
                | succ k =>
                  cases rest with
                  | nil => rw [utf8Valid_lead_one b0 b1 h0 h1] at hv; exact absurd hv (by decide)
                  | cons b2 rest =>
                    rw [List.length_cons] at hlen
                    by_cases h2 : 0xE0 ≤ b0 ∧ b0 ≤ 0xEF
                    · rw [utf8Valid_cons3 b0 b1 b2 rest h0 h1 h2, Bool.and_eq_true] at hv
                      rw [List.take_succ_cons, List.take_succ_cons, List.take_succ_cons,
                        utf8Valid_cons3 _ _ _ _ h0 h1 h2, Bool.and_eq_true]
                      refine ⟨hv.1, ih rest (by omega) hv.2 k ?_⟩
                      intro i hi
                      subst hi
                      exact hend (i + 1 + 1 + 1) rfl
                    · cases rest with
                      | nil =>
                        rw [utf8Valid_lead_two b0 b1 b2 h0 h1 h2] at hv
                        exact absurd hv (by decide)
                      | cons b3 rest =>
                        rw [List.length_cons] at hlen
                        rw [utf8Valid_cons4 b0 b1 b2 b3 rest h0 h1 h2, Bool.and_eq_true] at hv
                        cases k with
                        | zero =>
                          have := hend 2 rfl
                          rw [List.getD_cons_succ, List.getD_cons_succ,
                            List.getD_cons_zero] at this
                          have hc := hv.1
                          simp only [Bool.and_eq_true] at hc
                          have := isContinuation_gt b2 hc.1.1.1.2
                          omega
                        | succ k =>
                          rw [List.take_succ_cons, List.take_succ_cons, List.take_succ_cons,
                            List.take_succ_cons, utf8Valid_cons4 _ _ _ _ _ h0 h1 h2,
                            Bool.and_eq_true]
                          refine ⟨hv.1, ih rest (by omega) hv.2 k ?_⟩
                          intro i hi
                          subst hi
                          exact hend (i + 1 + 1 + 1 + 1) rfl


/-! ### The length computation when the product fits an `int` -/

/-- An `int` result inside the 32-bit range is not changed by wrapping. -/
theorem wrapInt32_eq_self (x : Int) (h1 : -2147483648 ≤ x) (h2 : x < 2147483648) :
    wrapInt32 x = x := by
  unfold wrapInt32
  omega

/-- A string has at most as many code points as bytes. -/
theorem CPLStrlenUTF8_le_length (v : CString) : CPLStrlenUTF8 v ≤ v.length := by
  induction v with
  | nil => simp [CPLStrlenUTF8]
  | cons b rest ih =>
    rw [CPLStrlenUTF8, List.length_cons]
    split <;> omega

/-- The back-up loop never moves forward. -/
theorem backupLoop_le (v : CString) (n : Nat) : backupLoop v n ≤ n := by
  induction n with
  | zero => simp [backupLoop]
  | succ k ih =>
    rw [backupLoop]
    split <;> omega

/-- The back-up loop stops at zero or just after a byte that is at most 127. -/
theorem backupLoop_end (v : CString) (n : Nat) :
    ∀ i, backupLoop v n = i + 1 → v.getD i 0 ≤ 127 := by
  induction n with
  | zero => intro i hi; simp [backupLoop] at hi
  | succ k ih =>
    intro i hi
    rw [backupLoop] at hi
    split at hi
    · exact ih i hi
    · have : k = i := by omega
      subst this
      omega

/-- The final `nSrcLen` when the value is cut and `byteLen * maxChars` fits an
`int`: the proportional length `byteLen * maxChars / charLen`, backed up by the
loop; it is below the byte length. -/
theorem finalSrcLen_of_truncation (v : CString) (m : Int)
    (ht : truncationApplies v m) (hfit : (v.length : Int) * m < 2147483648) :
    finalSrcLen v m = (backupLoop v (v.length * m.toNat / CPLStrlenUTF8 v) : Nat) ∧
    v.length * m.toNat / CPLStrlenUTF8 v < v.length := by
  obtain ⟨hm, hu⟩ := ht
  have hule := CPLStrlenUTF8_le_length v
  have hmM : (m.toNat : Int) = m := Int.toNat_of_nonneg (le_of_lt hm)
  have hlen1 : (v.length : Int) ≤ (v.length : Int) * m := by
    have : (0 : Int) ≤ (v.length : Int) := Int.ofNat_nonneg _
    nlinarith
  have hlenlt : (v.length : Int) < 2147483648 := lt_of_le_of_lt hlen1 hfit
  have hwu : wrapInt32 (CPLStrlenUTF8 v) = (CPLStrlenUTF8 v : Int) :=
    wrapInt32_eq_self _ (by omega) (by omega)
  have hwl : wrapInt32 (v.length) = (v.length : Int) :=
    wrapInt32_eq_self _ (by omega) (by omega)
  rw [hwu] at hu
  have hprod0 : (0 : Int) ≤ (v.length : Int) * m :=
    Int.mul_nonneg (Int.ofNat_nonneg _) (le_of_lt hm)
  have hwp : wrapInt32 ((v.length : Int) * m) = (v.length : Int) * m :=
    wrapInt32_eq_self _ (by omega) hfit
  have hcast : (v.length : Int) * m = ((v.length * m.toNat : Nat) : Int) := by
    push_cast; rw [hmM]
  have hq : ((v.length : Int) * m).tdiv (CPLStrlenUTF8 v : Int)
      = ((v.length * m.toNat / CPLStrlenUTF8 v : Nat) : Int) := by
    rw [Int.tdiv_eq_ediv hprod0 (Int.ofNat_nonneg _), hcast]
    exact (Int.ofNat_ediv _ _).symm
  have hMu : m.toNat < CPLStrlenUTF8 v := by omega
  have hqlt : v.length * m.toNat / CPLStrlenUTF8 v < v.length := by
    apply Nat.div_lt_of_lt_mul
    have hpos : 0 < v.length := by omega
    calc v.length * m.toNat < v.length * CPLStrlenUTF8 v :=
          Nat.mul_lt_mul_of_pos_left hMu hpos
      _ = CPLStrlenUTF8 v * v.length := Nat.mul_comm _ _
  refine ⟨?_, hqlt⟩
  unfold finalSrcLen
  rw [hwu, hwl, if_pos ⟨hm, hu⟩]
  simp only []
  rw [hwp, hq, backUp]
  generalize v.length * m.toNat / CPLStrlenUTF8 v = q
  split
  · rw [Int.toNat_ofNat]
  · rename_i hneg
    have h0 : q = 0 := by omega
    rw [h0]
    rfl

/-- The conversion to `size_t` keeps a length that is a natural number below
2^31. -/
theorem toSizeT_natCast (n : Nat) (h : n < 2147483648) : toSizeT (n : Int) = n := by
  unfold toSizeT
  omega

/-- When the value is cut and `byteLen * maxChars` fits an `int`, the bytes
handed to the escaper are the first `finalSrcLen` bytes, a proper prefix that is
empty or ends with a byte that is at most 127. -/
theorem keptBytes_of_truncation (v : CString) (m : Int)
    (ht : truncationApplies v m) (hfit : (v.length : Int) * m < 2147483648) :
    ∃ n : Nat, keptBytes v m = v.take n ∧ n < v.length ∧
      ∀ i, n = i + 1 → v.getD i 0 ≤ 127 := by
  obtain ⟨hfin, hlt⟩ := finalSrcLen_of_truncation v m ht hfit
  have hle := backupLoop_le v (v.length * m.toNat / CPLStrlenUTF8 v)
  have hlen1 : (v.length : Int) ≤ (v.length : Int) * m := by
    have : (0 : Int) ≤ (v.length : Int) := Int.ofNat_nonneg _
    have := ht.1
    nlinarith
  refine ⟨backupLoop v (v.length * m.toNat / CPLStrlenUTF8 v), ?_, by omega,
    backupLoop_end v _⟩
  unfold keptBytes
  rw [hfin, toSizeT_natCast _ (by omega)]

/-- When the value is cut and `byteLen * maxChars` fits an `int`, fewer bytes are
handed to the escaper than the value has. -/
theorem keptBytes_length_lt (v : CString) (m : Int)
    (ht : truncationApplies v m) (hfit : (v.length : Int) * m < 2147483648) :
    (keptBytes v m).length < v.length := by
  obtain ⟨n, hk, hn, _⟩ := keptBytes_of_truncation v m ht hfit
  rw [hk, List.length_take]
  omega

/-- When a well-formed UTF-8 value is cut and `byteLen * maxChars` fits an `int`,
the bytes handed to the escaper are well-formed UTF-8 and their last byte, if
any, is at most 127, hence not a continuation byte. -/
theorem keptBytes_utf8Valid (v : CString) (m : Int) (hv : utf8Valid v = true)
    (ht : truncationApplies v m) (hfit : (v.length : Int) * m < 2147483648) :
    utf8Valid (keptBytes v m) = true ∧
    ∀ b, (keptBytes v m).getLast? = some b → b ≤ 127 ∧ isContinuation b = false := by
  obtain ⟨n, hk, hn, hend⟩ := keptBytes_of_truncation v m ht hfit
  rw [hk]
  refine ⟨utf8Valid_take v.length v (le_refl _) hv n hend, ?_⟩
  intro b hb
  have hb127 : b ≤ 127 := by
    cases n with
    | zero => simp at hb
    | succ i =>
      have h1 := hend i rfl
      rw [List.getLast?_take] at hb
      have hi : i < v.length := by omega
      simp only [Nat.add_one_ne_zero, if_false, Nat.add_sub_cancel,
        List.getElem?_eq_getElem hi, Option.or_some, Option.some.injEq] at hb
      rw [List.getD_eq_getElem?_getD, List.getElem?_eq_getElem hi, Option.getD_some, hb] at h1
      exact h1
  refine ⟨hb127, ?_⟩
  simp only [isContinuation, Bool.and_eq_false_imp, decide_eq_true_eq, decide_eq_false_iff_not]
  omega

/-- When the value is not cut (and its byte length fits an `int`), every byte is
handed to the escaper. -/
theorem keptBytes_of_not_truncation (v : CString) (m : Int)
    (hlen : v.length < 2147483648) (ht : ¬ truncationApplies v m) :
    keptBytes v m = v := by
  have hule := CPLStrlenUTF8_le_length v
  have hwl : wrapInt32 (v.length) = (v.length : Int) :=
    wrapInt32_eq_self _ (by omega) (by omega)
  unfold truncationApplies at ht
  unfold keptBytes finalSrcLen
  simp only []
  rw [if_neg ht, hwl, toSizeT_natCast _ hlen, List.take_length]


/-! ## Properties of the quote translations -/

/-- The loop output is the translated prefix of the input. -/
theorem replaceBytes_eq_map (old new : Nat) (s : CString) (n : Nat) :
    replaceBytes old new s n = (s.take n).map (fun c => if c = old then new else c) := by
  unfold replaceBytes
  apply List.ext_getElem
  · simp [List.length_take]
  · intro i h1 h2
    have hi : i < min n s.length := by simpa using h1
    have hs : i < s.length := lt_of_lt_of_le hi (Nat.min_le_right _ _)
    simp [List.getElem_take, List.getElem?_eq_getElem hs]

/-- With a length that is not negative, `ReplaceQuotes` returns the translated
first `n` bytes. -/
theorem ReplaceQuotes_natCast (s : CString) (n : Nat) :
    ReplaceQuotes s (n : Int) = some ((s.take n).map (fun c => if c = 34 then 39 else c)) := by
  unfold ReplaceQuotes
  have h1 : ((n : Int) = -1) = False := by
    apply propext; constructor
    · intro h; omega
    · intro h; exact h.elim
  have h2 : ¬ ((n : Int) < 0) := by omega
  simp only [h1, if_false, h2, Int.toNat_ofNat, replaceBytes_eq_map]

/-- With a length that is not negative, `ReplaceSingleQuotes` returns the
translated first `n` bytes. -/
theorem ReplaceSingleQuotes_natCast (s : CString) (n : Nat) :
    ReplaceSingleQuotes s (n : Int)
      = some ((s.take n).map (fun c => if c = 39 then 34 else c)) := by
  unfold ReplaceSingleQuotes
  have h1 : ((n : Int) = -1) = False := by
    apply propext; constructor
    · intro h; omega
    · intro h; exact h.elim
  have h2 : ¬ ((n : Int) < 0) := by omega
  simp only [h1, if_false, h2, Int.toNat_ofNat, replaceBytes_eq_map]

/-- The length `-1` stands for the length of the input, when that fits an `int`. -/
theorem ReplaceQuotes_minus_one (s : CString) (hlen : s.length < 2147483648) :
    ReplaceQuotes s (-1) = ReplaceQuotes s (s.length : Int) := by
  have hw : wrapInt32 (s.length) = (s.length : Int) :=
    wrapInt32_eq_self _ (by omega) (by omega)
  have h1 : ((s.length : Int) = -1) = False := by
    apply propext; constructor
    · intro h; omega
    · intro h; exact h.elim
  unfold ReplaceQuotes
  simp only [if_true, hw, h1, if_false]

/-- The length `-1` stands for the length of the input, when that fits an `int`. -/
theorem ReplaceSingleQuotes_minus_one (s : CString) (hlen : s.length < 2147483648) :
    ReplaceSingleQuotes s (-1) = ReplaceSingleQuotes s (s.length : Int) := by
  have hw : wrapInt32 (s.length) = (s.length : Int) :=
    wrapInt32_eq_self _ (by omega) (by omega)
  have h1 : ((s.length : Int) = -1) = False := by
    apply propext; constructor
    · intro h; omega
    · intro h; exact h.elim
  unfold ReplaceSingleQuotes
  simp only [if_true, hw, h1, if_false]

/-- Over the full length, `ReplaceQuotes` translates every byte. -/
theorem ReplaceQuotes_full (s : CString) (hlen : s.length < 2147483648) :
    ReplaceQuotes s (-1) = some (s.map (fun c => if c = 34 then 39 else c)) := by
  rw [ReplaceQuotes_minus_one s hlen, ReplaceQuotes_natCast, List.take_length]

/-- Over the full length, `ReplaceSingleQuotes` translates every byte. -/
theorem ReplaceSingleQuotes_full (s : CString) (hlen : s.length < 2147483648) :
    ReplaceSingleQuotes s (-1) = some (s.map (fun c => if c = 39 then 34 else c)) := by
  rw [ReplaceSingleQuotes_minus_one s hlen, ReplaceSingleQuotes_natCast, List.take_length]

/-- Translating `a` to `b` and then `b` to `a` gives back a text without `b`. -/
theorem map_swap_back (a b : Nat) (s : CString) (hs : b ∉ s) :
    (s.map (fun c => if c = a then b else c)).map (fun c => if c = b then a else c) = s := by
  induction s with
  | nil => rfl
  | cons x rest ih =>
    have hx : x ≠ b := fun h => hs (h ▸ List.mem_cons_self _ _)
    have hrest : b ∉ rest := fun h => hs (List.mem_cons_of_mem _ h)
    rw [List.map_cons, List.map_cons, ih hrest]
    by_cases hxa : x = a
    · simp [hxa]
    · simp [hxa, hx]

/-- C14: over the full length of a string (whose length fits the `int` that
receives it), translating double quotes to single quotes and back gives the string
again when it has no single quote, and translating single quotes to double quotes
and back gives the string again when it has no double quote. -/
theorem quote_translations_inverse (s : CString) (hlen : s.length < 2147483648) :
    (39 ∉ s →
      (ReplaceQuotes s (-1)).bind (fun t => ReplaceSingleQuotes t (-1)) = some s) ∧
    (34 ∉ s →
      (ReplaceSingleQuotes s (-1)).bind (fun t => ReplaceQuotes t (-1)) = some s) := by
  constructor
  · intro hs
    rw [ReplaceQuotes_full s hlen, Option.some_bind,
      ReplaceSingleQuotes_full _ (by rw [List.length_map]; exact hlen),
      map_swap_back 34 39 s hs]
  · intro hs
    rw [ReplaceSingleQuotes_full s hlen, Option.some_bind,
      ReplaceQuotes_full _ (by rw [List.length_map]; exact hlen),
      map_swap_back 39 34 s hs]

/-- Witness of C14: the text `a"b` (no single quote) and the text `a'b` (no
double quote), the examples of the specification. -/
theorem quote_translations_inverse_witness :
    ([97, 34, 98] : CString).length < 2147483648 ∧ 39 ∉ ([97, 34, 98] : CString) ∧
    (ReplaceQuotes [97, 34, 98] (-1)).bind (fun t => ReplaceSingleQuotes t (-1))
      = some [97, 34, 98] ∧
    34 ∉ ([97, 39, 98] : CString) ∧
    (ReplaceSingleQuotes [97, 39, 98] (-1)).bind (fun t => ReplaceQuotes t (-1))
      = some [97, 39, 98] :=
  ⟨by decide, by decide,
   (quote_translations_inverse [97, 34, 98] (by decide)).1 (by decide),
   by decide,
   (quote_translations_inverse [97, 39, 98] (by decide)).2 (by decide)⟩

/-- A translated text does not contain the byte that was translated away. -/
theorem not_mem_map_swap (a b : Nat) (hab : a ≠ b) (s : CString) :
    a ∉ s.map (fun c => if c = a then b else c) := by
  intro h
  rw [List.mem_map] at h
  obtain ⟨c, _, hc⟩ := h
  by_cases hca : c = a
  · rw [if_pos hca] at hc; exact hab hc.symm
  · rw [if_neg hca] at hc; exact hca hc

/-- Byte `i` of a translated prefix. -/
theorem getD_map_take (a b : Nat) (s : CString) (n i : Nat) (hn : n ≤ s.length) (hi : i < n) :
    ((s.take n).map (fun c => if c = a then b else c)).getD i 0
      = if s.getD i 0 = a then b else s.getD i 0 := by
  have hs : i < s.length := lt_of_lt_of_le hi hn
  have ht : i < ((s.take n).map (fun c => if c = a then b else c)).length := by
    rw [List.length_map, List.length_take]; omega
  rw [List.getD_eq_getElem?_getD, List.getD_eq_getElem?_getD, List.getElem?_eq_getElem hs,
    List.getElem?_eq_getElem ht, Option.getD_some, Option.getD_some, List.getElem_map,
    List.getElem_take]

/-- C18: for a length `n` between 0 and the length of the input, `ReplaceQuotes`
returns a string of exactly `n` bytes, byte `i` being a single quote where the
input has a double quote and the input byte otherwise, so that no double quote is
left; `ReplaceSingleQuotes` does the same with the quotes exchanged; the length
`-1` gives the same result as the full length (which fits an `int`); and on the
heap the result is a new block, every existing block, the input included, being
left as it was. -/
theorem ReplaceQuotes_bytes (input : CString) (n : Nat) (hn : n ≤ input.length) :
    (∃ out, ReplaceQuotes input (n : Int) = some out ∧ out.length = n ∧
      (∀ i, i < n → out.getD i 0 = if input.getD i 0 = 34 then 39 else input.getD i 0) ∧
      34 ∉ out ∧
      ∀ h p, h.blocks.get? p = some input →
        replaceOnHeap ReplaceQuotes h p (n : Int)
          = some ({ blocks := h.blocks ++ [out] }, h.blocks.length)) ∧
    (∃ out, ReplaceSingleQuotes input (n : Int) = some out ∧ out.length = n ∧
      (∀ i, i < n → out.getD i 0 = if input.getD i 0 = 39 then 34 else input.getD i 0) ∧
      39 ∉ out ∧
      ∀ h p, h.blocks.get? p = some input →
        replaceOnHeap ReplaceSingleQuotes h p (n : Int)
          = some ({ blocks := h.blocks ++ [out] }, h.blocks.length)) ∧
    (input.length < 2147483648 →
      ReplaceQuotes input (-1) = ReplaceQuotes input (input.length : Int) ∧
      ReplaceSingleQuotes input (-1) = ReplaceSingleQuotes input (input.length : Int)) := by
  refine ⟨⟨_, ReplaceQuotes_natCast input n, ?_, ?_, not_mem_map_swap 34 39 (by decide) _, ?_⟩,
    ⟨_, ReplaceSingleQuotes_natCast input n, ?_, ?_, not_mem_map_swap 39 34 (by decide) _, ?_⟩,
    fun hlen => ⟨ReplaceQuotes_minus_one input hlen, ReplaceSingleQuotes_minus_one input hlen⟩⟩
  · rw [List.length_map, List.length_take]; omega
  · intro i hi; exact getD_map_take 34 39 input n i hn hi
  · intro h p hp
    simp only [replaceOnHeap, hp, ReplaceQuotes_natCast, CPLStrdup]
  · rw [List.length_map, List.length_take]; omega
  · intro i hi; exact getD_map_take 39 34 input n i hn hi
  · intro h p hp
    simp only [replaceOnHeap, hp, ReplaceSingleQuotes_natCast, CPLStrdup]

/-- Witness of C18: the first three bytes of the text `a"b'c`. -/
theorem ReplaceQuotes_bytes_witness :
    3 ≤ ([97, 34, 98, 39, 99] : CString).length ∧
    ReplaceQuotes [97, 34, 98, 39, 99] 3 = some [97, 39, 98] ∧
    ReplaceSingleQuotes [97, 34, 98, 39, 99] (-1) = some [97, 34, 98, 34, 99] ∧
    (∃ out, ReplaceQuotes [97, 34, 98, 39, 99] ((3 : Nat) : Int) = some out ∧ out.length = 3 ∧
      (∀ i, i < 3 → out.getD i 0
        = if ([97, 34, 98, 39, 99] : CString).getD i 0 = 34 then 39
          else ([97, 34, 98, 39, 99] : CString).getD i 0) ∧
      34 ∉ out ∧
      ∀ h p, h.blocks.get? p = some [97, 34, 98, 39, 99] →
        replaceOnHeap ReplaceQuotes h p ((3 : Nat) : Int)
          = some ({ blocks := h.blocks ++ [out] }, h.blocks.length)) :=
  ⟨by decide, by decide, by decide, (ReplaceQuotes_bytes [97, 34, 98, 39, 99] 3 (by decide)).1⟩


/-! ## Properties of the connection-string parser -/

/-- The tokenizer at the end of the text. -/
theorem tokenizeFrom_nil (b : Bool) (tok : CString) :
    tokenizeFrom b tok [] = emitToken tok [] := by
  rw [tokenizeFrom]

/-- The tokenizer at a space outside a quoted string: the token ends. -/
theorem tokenizeFrom_space (tok rest : CString) :
    tokenizeFrom false tok (32 :: rest) = emitToken tok (tokenizeFrom false [] rest) := by
  rw [tokenizeFrom.eq_def]
  simp

/-- The tokenizer at a double quote: the quoted string opens or closes. -/
theorem tokenizeFrom_quote (b : Bool) (tok rest : CString) :
    tokenizeFrom b tok (34 :: rest) = tokenizeFrom (!b) tok rest := by
  rw [tokenizeFrom.eq_def]
  simp

/-- The tokenizer at an ordinary byte outside a quoted string: it is copied. -/
theorem tokenizeFrom_byte_outside (c : Nat) (tok rest : CString) (h1 : c ≠ 32) (h2 : c ≠ 34) :
    tokenizeFrom false tok (c :: rest) = tokenizeFrom false (tok ++ [c]) rest := by
  rw [tokenizeFrom.eq_def]
  simp [h1, h2]

/-- The tokenizer at an ordinary byte inside a quoted string: it is copied. -/
theorem tokenizeFrom_byte_inside (c : Nat) (tok rest : CString) (h1 : c ≠ 34) (h2 : c ≠ 92) :
    tokenizeFrom true tok (c :: rest) = tokenizeFrom true (tok ++ [c]) rest := by
  rw [tokenizeFrom.eq_def]
  simp [h1, h2]

/-- A run of ordinary bytes outside a quoted string is copied to the token. -/
theorem tokenizeFrom_run_outside (w : CString) (hw : ∀ b ∈ w, b ≠ 32 ∧ b ≠ 34) :
    ∀ tok rest, tokenizeFrom false tok (w ++ rest) = tokenizeFrom false (tok ++ w) rest := by
  induction w with
  | nil => intro tok rest; simp
  | cons c w ih =>
    intro tok rest
    have hc := hw c (List.mem_cons_self _ _)
    rw [List.cons_append, tokenizeFrom_byte_outside c tok _ hc.1 hc.2,
      ih (fun b hb => hw b (List.mem_cons_of_mem _ hb)), List.append_assoc]
    rfl

/-- A run of ordinary bytes inside a quoted string is copied to the token. -/
theorem tokenizeFrom_run_inside (w : CString) (hw : ∀ b ∈ w, b ≠ 34 ∧ b ≠ 92) :
    ∀ tok rest, tokenizeFrom true tok (w ++ rest) = tokenizeFrom true (tok ++ w) rest := by
  induction w with
  | nil => intro tok rest; simp
  | cons c w ih =>
    intro tok rest
    have hc := hw c (List.mem_cons_self _ _)
    rw [List.cons_append, tokenizeFrom_byte_inside c tok _ hc.1 hc.2,
      ih (fun b hb => hw b (List.mem_cons_of_mem _ hb)), List.append_assoc]
    rfl

/-- Spaces before a token are skipped. -/
theorem tokenizeFrom_spaces (k : Nat) (rest : CString) :
    tokenizeFrom false [] (List.replicate k 32 ++ rest) = tokenizeFrom false [] rest := by
  induction k with
  | zero => simp
  | succ k ih =>
    rw [List.replicate_succ, List.cons_append, tokenizeFrom_space, ih]
    rfl

/-- Translating single quotes to double quotes leaves a text without single
quotes as it is. -/
theorem map_swap_of_not_mem (w : CString) (hw : ∀ b ∈ w, b ≠ 39) :
    w.map (fun c => if c = 39 then 34 else c) = w := by
  induction w with
  | nil => rfl
  | cons c w ih =>
    rw [List.map_cons, ih (fun b hb => hw b (List.mem_cons_of_mem _ hb)),
      if_neg (hw c (List.mem_cons_self _ _))]

/-- After the translation of its quotes, a well-formed segment adds its content
to the token, and the tokenizer is outside a quoted string again. -/
theorem tokenizeFrom_segment (seg : Segment) (hseg : seg.wellFormed) (tok rest : CString) :
    tokenizeFrom false tok (seg.render.map (fun c => if c = 39 then 34 else c) ++ rest)
      = tokenizeFrom false (tok ++ seg.content) rest := by
  cases seg with
  | plain w =>
    simp only [Segment.wellFormed] at hseg
    simp only [Segment.render, Segment.content]
    rw [map_swap_of_not_mem w (fun b hb => (hseg b hb).2.2.1)]
    exact tokenizeFrom_run_outside w (fun b hb => ⟨(hseg b hb).1, (hseg b hb).2.1⟩) tok rest
  | quoted dq q =>
    simp only [Segment.wellFormed] at hseg
    simp only [Segment.render, Segment.content]
    have hq : (if dq = true then 34 else 39 : Nat) = 34 ∨ (if dq = true then 34 else 39 : Nat) = 39 := by
      cases dq <;> simp
    have hm : ((if dq = true then 34 else 39 : Nat) :: (q ++ [if dq = true then 34 else 39])).map
        (fun c => if c = 39 then 34 else c) = 34 :: (q ++ [34]) := by
      rw [List.map_cons, List.map_append, map_swap_of_not_mem q (fun b hb => (hseg b hb).2.1)]
      cases dq <;> simp
    rw [hm, List.cons_append, tokenizeFrom_quote, List.append_assoc]
    show tokenizeFrom true tok (q ++ ([34] ++ rest)) = _
    rw [tokenizeFrom_run_inside q (fun b hb => ⟨(hseg b hb).1, (hseg b hb).2.2⟩)]
    show tokenizeFrom true (tok ++ q) (34 :: rest) = _
    rw [tokenizeFrom_quote]
    rfl

/-- After the translation of its quotes, an item of well-formed segments adds its
token text to the token collected so far. -/
theorem tokenizeFrom_item (item : List Segment) (hitem : ∀ seg ∈ item, seg.wellFormed) :
    ∀ tok rest,
      tokenizeFrom false tok ((renderItem item).map (fun c => if c = 39 then 34 else c) ++ rest)
        = tokenizeFrom false (tok ++ itemToken item) rest := by
  induction item with
  | nil => intro tok rest; simp [renderItem, itemToken]
  | cons seg item ih =>
    intro tok rest
    have h1 := hitem seg (List.mem_cons_self _ _)
    have h2 := ih (fun s hs => hitem s (List.mem_cons_of_mem _ hs))
    simp only [renderItem, itemToken, List.map_cons, List.flatten_cons, List.map_append,
      List.append_assoc] at h2 ⊢
    rw [tokenizeFrom_segment seg h1, h2, List.append_assoc]


/-- The items of a descriptor, after the translation of the quotes and followed by
spaces only, are split into their tokens, in order. -/
theorem tokenize_items (trail : Nat) :
    ∀ items : List (List Segment × Nat),
      (∀ it ∈ items, (∀ seg ∈ it.1, seg.wellFormed) ∧ itemToken it.1 ≠ []) →
      tokenizeFrom false []
          ((renderItems items).map (fun c => if c = 39 then 34 else c)
            ++ List.replicate trail 32)
        = items.map (fun it => itemToken it.1) := by
  intro items
  induction items with
  | nil =>
    intro _
    simp only [renderItems, List.map_nil, List.nil_append]
    have h := tokenizeFrom_spaces trail []
    rw [List.append_nil] at h
    rw [h, tokenizeFrom_nil]
    rfl
  | cons it more ih =>
    intro hall
    obtain ⟨item, gap⟩ := it
    have hit := hall (item, gap) (List.mem_cons_self _ _)
    have hmore := ih (fun x hx => hall x (List.mem_cons_of_mem _ hx))
    cases more with
    | nil =>
      simp only [renderItems, List.map_cons, List.map_nil]
      rw [tokenizeFrom_item item hit.1, List.nil_append]
      cases trail with
      | zero =>
        rw [List.replicate_zero, tokenizeFrom_nil, emitToken, if_neg hit.2]
      | succ k =>
        rw [List.replicate_succ, tokenizeFrom_space, emitToken, if_neg hit.2]
        have h := tokenizeFrom_spaces k []
        rw [List.append_nil] at h
        rw [h, tokenizeFrom_nil]
        rfl
    | cons it2 more2 =>
      simp only [renderItems, List.map_append, List.append_assoc, List.map_cons]
      rw [tokenizeFrom_item item hit.1, List.nil_append, List.map_replicate]
      simp only [if_neg (by decide : ¬ (32 : Nat) = 39)]
      rw [List.replicate_succ, List.cons_append, tokenizeFrom_space, emitToken, if_neg hit.2,
        tokenizeFrom_spaces]
      simp only [List.map_cons] at hmore
      rw [hmore]

/-- The text after the first colon, when the text before it has no colon. -/
theorem afterFirstColon_append (pfx rest : CString) (hp : 58 ∉ pfx) :
    afterFirstColon (pfx ++ 58 :: rest) = some rest := by
  induction pfx with
  | nil => simp [afterFirstColon, List.dropWhile]
  | cons c pfx ih =>
    have hc : c ≠ 58 := fun h => hp (h ▸ List.mem_cons_self _ _)
    have ih2 := ih (fun h => hp (List.mem_cons_of_mem _ h))
    unfold afterFirstColon at ih2 ⊢
    rw [List.cons_append, List.dropWhile_cons, if_pos (by simpa using hc)]
    exact ih2

/-- The translation of single quotes creates no colon. -/
theorem not_mem_map_swap_colon (pfx : CString) (hp : 58 ∉ pfx) :
    58 ∉ pfx.map (fun c => if c = 39 then 34 else c) := by
  intro h
  rw [List.mem_map] at h
  obtain ⟨c, hc, hcv⟩ := h
  by_cases h39 : c = 39
  · rw [if_pos h39] at hcv; exact absurd hcv (by decide)
  · rw [if_neg h39] at hcv; exact hp (hcv ▸ hc)

/-- A descriptor whose prefix has no colon, whose items are made of well-formed
segments and stand for non-empty tokens, and whose length fits an `int`, is parsed
into the tokens of its items, in order. -/
theorem parse_descriptor (pfx : CString) (lead : Nat) (items : List (List Segment × Nat))
    (trail : Nat) (hp : 58 ∉ pfx)
    (hitems : ∀ it ∈ items, (∀ seg ∈ it.1, seg.wellFormed) ∧ itemToken it.1 ≠ [])
    (hlen : (descriptor pfx lead items trail).length < 2147483648) :
    ParseConnectionString (descriptor pfx lead items trail)
      = some (items.map (fun it => itemToken it.1)) := by
  have hd : (descriptor pfx lead items trail).map (fun c => if c = 39 then 34 else c)
      = pfx.map (fun c => if c = 39 then 34 else c)
        ++ 58 :: (List.replicate lead 32
          ++ ((renderItems items).map (fun c => if c = 39 then 34 else c)
            ++ List.replicate trail 32)) := by
    simp only [descriptor, List.map_append, List.map_cons, List.map_nil, List.map_replicate,
      List.append_assoc, List.singleton_append]
    simp
  rw [ParseConnectionString, tokenizerInput, ReplaceSingleQuotes_full _ hlen, Option.some_bind,
    hd, afterFirstColon_append _ _ (not_mem_map_swap_colon pfx hp), Option.map_some',
    CSLTokenizeString2, tokenizeFrom_spaces, tokenize_items trail items hitems]

/-- C11 (amended): a descriptor made of a prefix without colon, a colon, and items
separated by spaces, each item a sequence of plain pieces and quoted pieces (a
quoted piece may contain spaces, but no quote character, single or double, and no
backslash), is parsed into one token per item, in order of appearance,
each token being the text of its pieces without the quote characters; so a key
followed by a value in single quotes gives the single token key ++ value. The
length of the descriptor fits an `int`. -/
theorem ParseConnectionString_quoted_items (pfx : CString) (lead : Nat)
    (items : List (List Segment × Nat)) (trail : Nat) (hp : 58 ∉ pfx)
    (hitems : ∀ it ∈ items, (∀ seg ∈ it.1, seg.wellFormed) ∧ itemToken it.1 ≠ [])
    (hlen : (descriptor pfx lead items trail).length < 2147483648) :
    ParseConnectionString (descriptor pfx lead items trail)
      = some (items.map (fun it => itemToken it.1)) ∧
    ∀ key value gap, ([Segment.plain key, Segment.quoted false value], gap) ∈ items →
      key ++ value ∈ items.map (fun it => itemToken it.1) := by
  refine ⟨parse_descriptor pfx lead items trail hp hitems hlen, ?_⟩
  intro key value gap hmem
  rw [List.mem_map]
  exact ⟨_, hmem, by simp [itemToken, Segment.content]⟩

/-- Witness of C11: the example of the specification, `PG:host=localhost user=foo
password=` followed by `a b` in single quotes, gives the three tokens
`host=localhost`, `user=foo` and `password=a b`. -/
theorem ParseConnectionString_quoted_items_witness :
    exampleDescriptor = descriptor (lit "PG") 0
      [([Segment.plain (lit "host=localhost")], 0), ([Segment.plain (lit "user=foo")], 0),
       ([Segment.plain (lit "password="), Segment.quoted false (lit "a b")], 0)] 0 ∧
    ParseConnectionString exampleDescriptor
      = some [lit "host=localhost", lit "user=foo", lit "password=a b"] :=
  ⟨by decide,
   (ParseConnectionString_quoted_items (lit "PG") 0
      [([Segment.plain (lit "host=localhost")], 0), ([Segment.plain (lit "user=foo")], 0),
       ([Segment.plain (lit "password="), Segment.quoted false (lit "a b")], 0)] 0
      (by decide) (by decide) (by decide)).1⟩

/-- C12: a descriptor made of a prefix without colon, a colon, any number of
spaces, then tokens that are non-empty and free of spaces, quotes and backslashes
(colons are allowed), separated by one or more spaces and followed by any number
of spaces, is parsed into exactly those tokens, in order; the prefix is not part
of the result and the result is empty when there is no token. The length of the
descriptor fits an `int`. -/
theorem ParseConnectionString_plain_tokens (pfx : CString) (lead : Nat)
    (ts : List (CString × Nat)) (trail : Nat) (hp : 58 ∉ pfx)
    (hts : ∀ t ∈ ts, t.1 ≠ [] ∧ ∀ b ∈ t.1, b ≠ 32 ∧ b ≠ 34 ∧ b ≠ 39 ∧ b ≠ 92)
    (hlen : (descriptor pfx lead (ts.map (fun t => ([Segment.plain t.1], t.2))) trail).length
      < 2147483648) :
    ParseConnectionString
        (descriptor pfx lead (ts.map (fun t => ([Segment.plain t.1], t.2))) trail)
      = some (ts.map Prod.fst) := by
  have h := parse_descriptor pfx lead (ts.map (fun t => ([Segment.plain t.1], t.2))) trail hp
    (by
      intro it hit
      rw [List.mem_map] at hit
      obtain ⟨t, ht, rfl⟩ := hit
      have := hts t ht
      refine ⟨?_, by simpa [itemToken, Segment.content] using this.1⟩
      intro seg hseg
      rw [List.mem_singleton] at hseg
      subst hseg
      exact this.2) hlen
  have hfun : ((fun it : List Segment × Nat => itemToken it.1)
      ∘ fun t : CString × Nat => ([Segment.plain t.1], t.2)) = Prod.fst := by
    funext t
    simp [itemToken, Segment.content]
  rw [h, List.map_map, hfun]

/-- Witness of C12: `PG:  a   b:c  ` gives the tokens `a` and `b:c`, and `PG:`
followed by three spaces gives no token. -/
theorem ParseConnectionString_plain_tokens_witness :
    descriptor (lit "PG") 2 ([(lit "a", 2), (lit "b:c", 0)].map
        (fun t => ([Segment.plain t.1], t.2))) 2 = lit "PG:  a   b:c  " ∧
    ParseConnectionString (lit "PG:  a   b:c  ") = some [lit "a", lit "b:c"] ∧
    ParseConnectionString (lit "PG:   ") = some [] :=
  ⟨by decide,
   ParseConnectionString_plain_tokens (lit "PG") 2 [(lit "a", 2), (lit "b:c", 0)] 2
     (by decide) (by decide) (by decide),
   ParseConnectionString_plain_tokens (lit "PG") 3 [] 0 (by decide) (by decide) (by decide)⟩

/-- The text after the first colon is the text after the position of the first
colon. -/
theorem afterFirstColon_eq_drop (e : CString) (he : 58 ∈ e) :
    afterFirstColon e = some (e.drop (e.indexOf 58 + 1)) := by
  induction e with
  | nil => exact absurd he (List.not_mem_nil _)
  | cons c e ih =>
    by_cases hc : c = 58
    · subst hc
      simp [afterFirstColon, List.dropWhile, List.indexOf_cons]
    · have he2 : 58 ∈ e := by
        rcases List.mem_cons.mp he with h | h
        · exact absurd h.symm hc
        · exact h
      have ih2 := ih he2
      unfold afterFirstColon at ih2 ⊢
      rw [List.dropWhile_cons, if_pos (by simpa using hc), ih2, List.indexOf_cons]
      have hc2 : (c == 58) = false := by simpa using hc
      simp [hc2]

/-- C13 (the claim as stated fails): for the descriptor `PG:a=` followed by `b c`
in double quotes, the double quotes reach the tokenizer untranslated and the
result is the single token `a=b c`, while tokenizing the part after the colon of
`ReplaceQuotes` of the descriptor gives two tokens that keep the single quotes. -/
theorem ParseConnectionString_not_via_ReplaceQuotes :
    58 ∈ doubleQuotedDescriptor ∧
    tokenizerInput doubleQuotedDescriptor = some (lit "a=" ++ [34] ++ lit "b c" ++ [34]) ∧
    ParseConnectionString doubleQuotedDescriptor = some [lit "a=b c"] ∧
    ((ReplaceQuotes doubleQuotedDescriptor (-1)).bind afterFirstColon).map CSLTokenizeString2
      = some [lit "a=" ++ [39] ++ lit "b", lit "c" ++ [39]] ∧
    ParseConnectionString doubleQuotedDescriptor
      ≠ ((ReplaceQuotes doubleQuotedDescriptor (-1)).bind afterFirstColon).map
          CSLTokenizeString2 := by
  decide

/-- C13 (amended): before tokenizing, `ParseConnectionString` translates every
single quote of the descriptor to a double quote: for a descriptor that contains
a colon (and whose length fits an `int`), the string handed to the tokenizer is
the part after the first colon of `ReplaceSingleQuotes` of the descriptor, which is
the descriptor with each single quote replaced by a double quote, and the result
is the tokenization of that string. -/
theorem ParseConnectionString_via_ReplaceSingleQuotes (d : CString) (hd : 58 ∈ d)
    (hlen : d.length < 2147483648) :
    ∃ e, ReplaceSingleQuotes d (-1) = some e ∧
      e = d.map (fun c => if c = 39 then 34 else c) ∧
      tokenizerInput d = some (e.drop (e.indexOf 58 + 1)) ∧
      ParseConnectionString d = some (CSLTokenizeString2 (e.drop (e.indexOf 58 + 1))) := by
  have he : 58 ∈ d.map (fun c => if c = 39 then 34 else c) := by
    rw [List.mem_map]
    exact ⟨58, hd, by decide⟩
  have hin : tokenizerInput d
      = some ((d.map (fun c => if c = 39 then 34 else c)).drop
          ((d.map (fun c => if c = 39 then 34 else c)).indexOf 58 + 1)) := by
    rw [tokenizerInput, ReplaceSingleQuotes_full d hlen, Option.some_bind,
      afterFirstColon_eq_drop _ he]
  refine ⟨_, ReplaceSingleQuotes_full d hlen, rfl, hin, ?_⟩
  rw [ParseConnectionString, hin, Option.map_some']

/-- Witness of C13 (amended): the descriptor of the example of the
specification. -/
theorem ParseConnectionString_via_ReplaceSingleQuotes_witness :
    58 ∈ exampleDescriptor ∧ exampleDescriptor.length < 2147483648 ∧
    ∃ e, ReplaceSingleQuotes exampleDescriptor (-1) = some e ∧
      e = exampleDescriptor.map (fun c => if c = 39 then 34 else c) ∧
      tokenizerInput exampleDescriptor = some (e.drop (e.indexOf 58 + 1)) ∧
      ParseConnectionString exampleDescriptor
        = some (CSLTokenizeString2 (e.drop (e.indexOf 58 + 1))) :=
  ⟨by decide, by decide,
   ParseConnectionString_via_ReplaceSingleQuotes exampleDescriptor (by decide) (by decide)⟩


/-! ## The decoder as a table lookup -/

/-- A guarded store into a slot that was just stored to. -/
theorem store_store {α : Type} (p : Option α) (v w : α) : store (store p v) w = store p w := by
  cases p <;> rfl

/-- The chain of tests of `TranslateDataType` is the lookup of the first matching
row of the table in source order. -/
theorem TranslateDataType_eq_decodeWith (s : CString) (out : OutSlots) :
    TranslateDataType (some s) out = decodeWith pixelTypeTable (some s) out := by
  simp only [TranslateDataType, decodeWith, pixelTypeTable, List.find?, rowMatches,
    setDepthAndType]
  have l3 : (lit "1BB").length = 3 := by decide
  have l4a : (lit "2BUI").length = 4 := by decide
  have l4b : (lit "4BUI").length = 4 := by decide
  have l4c : (lit "8BUI").length = 4 := by decide
  have l4d : (lit "8BSI").length = 4 := by decide
  have l5a : (lit "16BSI").length = 5 := by decide
  have l5b : (lit "16BUI").length = 5 := by decide
  have l5c : (lit "32BSI").length = 5 := by decide
  have l5d : (lit "32BUI").length = 5 := by decide
  have l4e : (lit "32BF").length = 4 := by decide
  have l4f : (lit "64BF").length = 4 := by decide
  rw [l3, l4a, l4b, l4c, l4d, l5a, l5b, l5c, l5d, l4e, l4f]
  cases h1 : EQUALN s (lit "1BB") 3 <;> simp only [if_true, if_false, Bool.false_eq_true]
  cases h2 : EQUALN s (lit "2BUI") 4 <;> simp only [if_true, if_false, Bool.false_eq_true]
  cases h3 : EQUALN s (lit "4BUI") 4 <;> simp only [if_true, if_false, Bool.false_eq_true]
  cases h4 : EQUALN s (lit "8BUI") 4 <;> simp only [if_true, if_false, Bool.false_eq_true]
  cases h5 : EQUALN s (lit "8BSI") 4 <;> simp only [if_true, if_false, Bool.false_eq_true]
  cases h6 : EQUALN s (lit "16BSI") 5 <;> simp only [if_true, if_false, Bool.false_eq_true]
  cases h7 : EQUALN s (lit "16BUI") 5 <;> simp only [if_true, if_false, Bool.false_eq_true]
  cases h8 : EQUALN s (lit "32BSI") 5 <;> simp only [if_true, if_false, Bool.false_eq_true]
  cases h9 : EQUALN s (lit "32BUI") 5 <;> simp only [if_true, if_false, Bool.false_eq_true]
  cases h10 : EQUALN s (lit "32BF") 4 <;> simp only [if_true, if_false, Bool.false_eq_true]
  cases h11 : EQUALN s (lit "64BF") 4 <;> simp only [if_true, if_false, Bool.false_eq_true]
  all_goals simp only [store_store]


/-- The test of a row is the case-insensitive prefix test. -/
theorem rowMatches_iff (s : CString) (row : TableRow) :
    rowMatches s row = true ↔ startsWithCI s row.1 :=
  EQUALN_length_iff row.1 s

/-- A string that begins with a code is at least as long as the code. -/
theorem length_le_of_startsWithCI (s c : CString) (h : startsWithCI s c) :
    c.length ≤ s.length := by
  have hl := congrArg List.length h
  rw [List.length_map, List.length_map, List.length_take] at hl
  omega

/-- A string that begins with a code agrees with it on every shorter prefix. -/
theorem startsWithCI_take (s c : CString) (h : startsWithCI s c) (k : Nat) (hk : k ≤ c.length) :
    (s.take k).map toLowerAscii = (c.take k).map toLowerAscii := by
  have ht := congrArg (List.take k) h
  rw [← List.map_take, ← List.map_take, List.take_take, Nat.min_eq_left hk] at ht
  exact ht

/-- Two different rows of the table differ, ignoring case, within the length of
the shorter code. -/
theorem table_codes_differ :
    ∀ r1 ∈ pixelTypeTable, ∀ r2 ∈ pixelTypeTable, r1 ≠ r2 →
      (r1.1.take (min r1.1.length r2.1.length)).map toLowerAscii
        ≠ (r2.1.take (min r1.1.length r2.1.length)).map toLowerAscii := by
  decide

/-- No string passes the test of two different rows of the table. -/
theorem rowMatches_unique (s : CString) :
    ∀ r1 ∈ pixelTypeTable, ∀ r2 ∈ pixelTypeTable,
      rowMatches s r1 = true → rowMatches s r2 = true → r1 = r2 := by
  intro r1 h1 r2 h2 m1 m2
  by_contra hne
  have e1 := startsWithCI_take s r1.1 ((rowMatches_iff s r1).mp m1)
    (min r1.1.length r2.1.length) (Nat.min_le_left _ _)
  have e2 := startsWithCI_take s r2.1 ((rowMatches_iff s r2).mp m2)
    (min r1.1.length r2.1.length) (Nat.min_le_right _ _)
  exact table_codes_differ r1 h1 r2 h2 hne (e1.symm.trans e2)

/-- In a list with at most one element that passes a test, the first element that
passes is that element. -/
theorem find?_eq_some_of_unique {α : Type} (p : α → Bool) (l : List α) (a : α)
    (ha : a ∈ l) (hpa : p a = true) (hu : ∀ b ∈ l, p b = true → b = a) :
    l.find? p = some a := by
  induction l with
  | nil => exact absurd ha (List.not_mem_nil _)
  | cons x l ih =>
    by_cases hx : p x = true
    · have := hu x (List.mem_cons_self _ _) hx
      rw [List.find?_cons_of_pos _ hx, this]
    · rw [List.find?_cons_of_neg _ hx]
      have hal : a ∈ l := by
        rcases List.mem_cons.mp ha with h | h
        · exact absurd (h ▸ hpa) hx
        · exact h
      exact ih hal (fun b hb => hu b (List.mem_cons_of_mem _ hb))

/-- The lookup of a table with the same rows as the table of the source, in any
order, finds the same row or none. -/
theorem find?_perm_table (table : List TableRow) (hperm : table.Perm pixelTypeTable)
    (s : CString) :
    table.find? (rowMatches s) = pixelTypeTable.find? (rowMatches s) := by
  cases hf : pixelTypeTable.find? (rowMatches s) with
  | none =>
    rw [List.find?_eq_none] at hf ⊢
    intro x hx
    exact hf x (hperm.mem_iff.mp hx)
  | some row =>
    have hrow := List.mem_of_find?_eq_some hf
    have hm : rowMatches s row = true := List.find?_some hf
    exact find?_eq_some_of_unique _ table row (hperm.mem_iff.mpr hrow) hm
      (fun b hb hpb => rowMatches_unique s b (hperm.mem_iff.mp hb) row hrow hpb hm)

/-- C16: for a non-null string, `TranslateDataType` returns true exactly when the
string begins, ignoring ASCII case, with one of the eleven codes; it then writes
the descriptor of that code to the requested slots whatever follows the prefix;
and a string shorter than a code does not begin with it. -/
theorem TranslateDataType_succeeds_iff (s : CString) (out : OutSlots) :
    ((TranslateDataType (some s) out).1 = true ↔ ∃ c ∈ pixelTypeCodes, startsWithCI s c) ∧
    (∀ row ∈ pixelTypeTable, startsWithCI s row.1 →
      TranslateDataType (some s) out
        = (true, { poDataType := store out.poDataType row.2.1,
                   pnBitsDepth := store out.pnBitsDepth row.2.2.1,
                   pbSignedByte := store out.pbSignedByte row.2.2.2 })) ∧
    (∀ c ∈ pixelTypeCodes, s.length < c.length →
      ¬ startsWithCI s c ∧ EQUALN s c c.length = false) := by
  have hrow : ∀ row ∈ pixelTypeTable, startsWithCI s row.1 →
      TranslateDataType (some s) out
        = (true, { poDataType := store out.poDataType row.2.1,
                   pnBitsDepth := store out.pnBitsDepth row.2.2.1,
                   pbSignedByte := store out.pbSignedByte row.2.2.2 }) := by
    intro row hmem hstart
    have hm : rowMatches s row = true := (rowMatches_iff s row).mpr hstart
    have hf := find?_eq_some_of_unique (rowMatches s) pixelTypeTable row hmem hm
      (fun b hb hpb => rowMatches_unique s b hb row hmem hpb hm)
    rw [TranslateDataType_eq_decodeWith, decodeWith, hf]
  refine ⟨⟨?_, ?_⟩, hrow, ?_⟩
  · intro hsucc
    rw [TranslateDataType_eq_decodeWith, decodeWith] at hsucc
    cases hf : pixelTypeTable.find? (rowMatches s) with
    | none => rw [hf] at hsucc; simp at hsucc
    | some row =>
      exact ⟨row.1, List.mem_map.mpr ⟨row, List.mem_of_find?_eq_some hf, rfl⟩,
        (rowMatches_iff s row).mp (List.find?_some hf)⟩
  · rintro ⟨c, hc, hstart⟩
    obtain ⟨row, hmem, rfl⟩ := List.mem_map.mp hc
    rw [hrow row hmem hstart]
  · intro c _ hlt
    have hn : ¬ startsWithCI s c := fun h => by
      have := length_le_of_startsWithCI s c h
      omega
    exact ⟨hn, EQUALN_eq_false c s hn⟩

/-- Witness of C16: `8BUIxyz` and `8bui` both decode to Byte, 8, false, and the
shorter `8BU` is rejected. -/
theorem TranslateDataType_succeeds_iff_witness :
    TranslateDataType (some (lit "8BUIxyz")) (allRequested GDT_Unknown 0 true)
      = (true, allRequested GDT_Byte 8 false) ∧
    TranslateDataType (some (lit "8bui")) (allRequested GDT_Unknown 0 true)
      = (true, allRequested GDT_Byte 8 false) ∧
    (TranslateDataType (some (lit "8BU")) (allRequested GDT_Unknown 0 true)).1 = false :=
  ⟨(TranslateDataType_succeeds_iff (lit "8BUIxyz") (allRequested GDT_Unknown 0 true)).2.1
      (lit "8BUI", GDT_Byte, 8, false) (by decide) (by decide),
   (TranslateDataType_succeeds_iff (lit "8bui") (allRequested GDT_Unknown 0 true)).2.1
      (lit "8BUI", GDT_Byte, 8, false) (by decide) (by decide),
   by decide⟩

/-- C17: no string passes the prefix test of two of the eleven candidates, and a
decoder that makes the eleven tests in any other order returns the same flag and
writes the same descriptor as `TranslateDataType`, for every string and every
choice of requested slots. -/
theorem decoder_order_independent :
    (∀ s : CString, ∀ r1 ∈ pixelTypeTable, ∀ r2 ∈ pixelTypeTable,
      rowMatches s r1 = true → rowMatches s r2 = true → r1 = r2) ∧
    (∀ table : List TableRow, table.Perm pixelTypeTable →
      ∀ (pszDataType : Option CString) (out : OutSlots),
        decodeWith table pszDataType out = TranslateDataType pszDataType out) := by
  refine ⟨rowMatches_unique, ?_⟩
  intro table hperm pszDataType out
  cases pszDataType with
  | none => rfl
  | some s =>
    rw [TranslateDataType_eq_decodeWith]
    simp only [decodeWith, find?_perm_table table hperm s]

/-- Witness of C17: the eleven tests in reverse order, on the string `32bfx`. -/
theorem decoder_order_independent_witness :
    decodeWith pixelTypeTable.reverse (some (lit "32bfx")) (allRequested GDT_Unknown 0 true)
      = TranslateDataType (some (lit "32bfx")) (allRequested GDT_Unknown 0 true) ∧
    TranslateDataType (some (lit "32bfx")) (allRequested GDT_Unknown 0 true)
      = (true, allRequested GDT_Float32 32 false) :=
  ⟨decoder_order_independent.2 pixelTypeTable.reverse (List.reverse_perm _)
      (some (lit "32bfx")) (allRequested GDT_Unknown 0 true),
   by decide⟩


/-! ## The encoder outside the base types, and its frame -/

/-- Strings that `EQUAL` accepts agree byte for byte once lower-cased. -/
theorem EQUAL_map_lower (s c : CString) (h : EQUAL s c = true) :
    s.map toLowerAscii = c.map toLowerAscii := by
  induction s generalizing c with
  | nil => cases c with
    | nil => rfl
    | cons b bs => simp [EQUAL] at h
  | cons a as ih => cases c with
    | nil => simp [EQUAL] at h
    | cons b bs =>
      simp only [EQUAL, Bool.and_eq_true, beq_iff_eq] at h
      rw [List.map_cons, List.map_cons, h.1, ih bs h.2]

/-- The first bytes of the string found at an address are the first bytes of the
memory there. -/
theorem take_cstrAt (mem : List Nat) (k : Nat) (hk : k ≤ (cstrAt mem).length) :
    (cstrAt mem).take k = mem.take k := by
  unfold cstrAt at hk ⊢
  induction mem generalizing k with
  | nil => simp
  | cons b mem ih =>
    cases k with
    | zero => simp
    | succ k =>
      by_cases hb : (b != 0) = true
      · simp only [List.takeWhile_cons, hb, if_true, List.length_cons] at hk ⊢
        rw [List.take_succ_cons, List.take_succ_cons, ih k (by omega)]
      · simp [List.takeWhile_cons, hb] at hk

/-- The encoder returns true only when the memory at the pointer begins, ignoring
case, with the four letters `GDT_`. -/
theorem encoder_true_spells_name (h : Heap) (p : Option Ptr) (mem : List Nat)
    (hret : (TranslateDataTypeGDALtoPostGIS h p (some mem)).ret = true) :
    (mem.take 4).map toLowerAscii = lit "gdt_" := by
  have key : ∀ name : CString, 4 ≤ name.length →
      (name.take 4).map toLowerAscii = lit "gdt_" →
      EQUAL (cstrAt mem) name = true → (mem.take 4).map toLowerAscii = lit "gdt_" := by
    intro name hlen hname hE
    have hl := EQUAL_length _ _ hE
    have hm := EQUAL_map_lower _ _ hE
    rw [← take_cstrAt mem 4 (by omega), List.map_take, hm, ← List.map_take, hname]
  by_contra hne
  have e1 : EQUAL (cstrAt mem) (lit "GDT_Byte") = false := by
    cases hE : EQUAL (cstrAt mem) (lit "GDT_Byte") with
    | false => rfl
    | true => exact absurd (key _ (by decide) (by decide) hE) hne
  have e2 : EQUAL (cstrAt mem) (lit "GDT_Int16") = false := by
    cases hE : EQUAL (cstrAt mem) (lit "GDT_Int16") with
    | false => rfl
    | true => exact absurd (key _ (by decide) (by decide) hE) hne
  have e3 : EQUAL (cstrAt mem) (lit "GDT_UInt16") = false := by
    cases hE : EQUAL (cstrAt mem) (lit "GDT_UInt16") with
    | false => rfl
    | true => exact absurd (key _ (by decide) (by decide) hE) hne
  have e4 : EQUAL (cstrAt mem) (lit "GDT_Int32") = false := by
    cases hE : EQUAL (cstrAt mem) (lit "GDT_Int32") with
    | false => rfl
    | true => exact absurd (key _ (by decide) (by decide) hE) hne
  have e5 : EQUAL (cstrAt mem) (lit "GDT_UInt32") = false := by
    cases hE : EQUAL (cstrAt mem) (lit "GDT_UInt32") with
    | false => rfl
    | true => exact absurd (key _ (by decide) (by decide) hE) hne
  have e6 : EQUAL (cstrAt mem) (lit "GDT_Float32") = false := by
    cases hE : EQUAL (cstrAt mem) (lit "GDT_Float32") with
    | false => rfl
    | true => exact absurd (key _ (by decide) (by decide) hE) hne
  have e7 : EQUAL (cstrAt mem) (lit "GDT_Float64") = false := by
    cases hE : EQUAL (cstrAt mem) (lit "GDT_Float64") with
    | false => rfl
    | true => exact absurd (key _ (by decide) (by decide) hE) hne
  simp [TranslateDataTypeGDALtoPostGIS, e1, e2, e3, e4, e5, e6, e7] at hret

/-- The C string found at the address of an `int` below 2^24 has at most three
bytes, in either byte order. -/
theorem cstrAt_int32Bytes_length (bigEndian : Bool) (v : Nat) (hv : v < 16777216)
    (next : List Nat) : (cstrAt (int32Bytes bigEndian v ++ next)).length ≤ 3 := by
  have h0 : v / 16777216 % 256 = 0 := by omega
  cases bigEndian
  · simp only [int32Bytes, h0, Bool.false_eq_true, if_false, List.cons_append, List.nil_append,
      cstrAt]
    by_cases h1 : (v % 256 != 0) = true
    · by_cases h2 : (v / 256 % 256 != 0) = true
      · by_cases h3 : (v / 65536 % 256 != 0) = true
        · simp [List.takeWhile_cons, h1, h2, h3]
        · simp [List.takeWhile_cons, h1, h2, h3]
      · simp [List.takeWhile_cons, h1, h2]
    · simp [List.takeWhile_cons, h1]
  · simp only [int32Bytes, h0, if_true, List.reverse_cons, List.reverse_nil, List.nil_append,
      List.cons_append, cstrAt]
    simp [List.takeWhile_cons]

/-- The inputs on which the encoder does reject, in support of C15:
`TranslateDataTypeGDALtoPostGIS` returns false, allocating nothing, for a
null type pointer; for a variable holding Unknown or a complex type; for a
variable holding any integer below 2^24 (every value of the enumeration type, in
range or not); and more generally for any 32-bit integer whose four bytes do not
spell `GDT_` ignoring case. Byte order and the memory after the variable are
arbitrary. -/
theorem TranslateDataTypeGDALtoPostGIS_rejects_others (h : Heap) (p : Option Ptr)
    (bigEndian : Bool) (next : List Nat) :
    TranslateDataTypeGDALtoPostGIS h p none = { ret := false, heap := h, pszDataType := p } ∧
    (∀ t : GDALDataType, t ∉ baseTypes →
      TranslateDataTypeGDALtoPostGIS h p (some (memOfDataType bigEndian t next))
        = { ret := false, heap := h, pszDataType := p }) ∧
    (∀ v : Nat, v < 16777216 →
      TranslateDataTypeGDALtoPostGIS h p (some (int32Bytes bigEndian v ++ next))
        = { ret := false, heap := h, pszDataType := p }) ∧
    (∀ v : Nat, (int32Bytes bigEndian v).map toLowerAscii ≠ lit "gdt_" →
      (TranslateDataTypeGDALtoPostGIS h p (some (int32Bytes bigEndian v ++ next))).ret
        = false) := by
  refine ⟨rfl, ?_, ?_, ?_⟩
  · intro t _
    exact encoder_rejects_short_string h p _
      (lt_of_le_of_lt (cstrAt_memOfDataType_length bigEndian t next) (by decide))
  · intro v hv
    exact encoder_rejects_short_string h p _
      (lt_of_le_of_lt (cstrAt_int32Bytes_length bigEndian v hv next) (by decide))
  · intro v hv
    cases hr : (TranslateDataTypeGDALtoPostGIS h p (some (int32Bytes bigEndian v ++ next))).ret with
    | false => rfl
    | true =>
      have := encoder_true_spells_name h p _ hr
      have h4 : (int32Bytes bigEndian v ++ next).take 4 = int32Bytes bigEndian v := by
        cases bigEndian <;> simp [int32Bytes]
      rw [h4] at this
      exact absurd this hv

/-- Instances of the rejection: the complex type CFloat64 and the out-of-range
value 12 on a little-endian machine, and the value -1 (all bytes 255). -/
theorem TranslateDataTypeGDALtoPostGIS_rejects_others_witness :
    GDT_CFloat64 ∉ baseTypes ∧
    TranslateDataTypeGDALtoPostGIS { blocks := [[]] } (some 0)
        (some (memOfDataType false GDT_CFloat64 [7]))
      = { ret := false, heap := { blocks := [[]] }, pszDataType := some 0 } ∧
    TranslateDataTypeGDALtoPostGIS { blocks := [[]] } (some 0)
        (some (int32Bytes false 12 ++ [7]))
      = { ret := false, heap := { blocks := [[]] }, pszDataType := some 0 } ∧
    (TranslateDataTypeGDALtoPostGIS { blocks := [[]] } (some 0)
        (some (int32Bytes false 4294967295 ++ [7]))).ret = false :=
  ⟨by decide,
   (TranslateDataTypeGDALtoPostGIS_rejects_others { blocks := [[]] } (some 0) false [7]).2.1
     GDT_CFloat64 (by decide),
   (TranslateDataTypeGDALtoPostGIS_rejects_others { blocks := [[]] } (some 0) false [7]).2.2.1
     12 (by decide),
   (TranslateDataTypeGDALtoPostGIS_rejects_others { blocks := [[]] } (some 0) false [7]).2.2.2
     4294967295 (by decide)⟩

/-- The encoder either leaves the heap as it is or adds one block, and what it
assigns is its own copy of the parameter. -/
theorem encoder_heap (h : Heap) (p : Option Ptr) (mem : Option (List Nat)) :
    (TranslateDataTypeGDALtoPostGIS h p mem
        = { ret := false, heap := h, pszDataType := p }) ∨
    ∃ code, TranslateDataTypeGDALtoPostGIS h p mem
        = { ret := true, heap := { blocks := h.blocks ++ [code] },
            pszDataType := some h.blocks.length } := by
  cases mem with
  | none => exact Or.inl rfl
  | some mem =>
    simp only [TranslateDataTypeGDALtoPostGIS, assignCode, CPLStrdup]
    split
    · exact Or.inr ⟨_, rfl⟩
    · split
      · exact Or.inr ⟨_, rfl⟩
      · split
        · exact Or.inr ⟨_, rfl⟩
        · split
          · exact Or.inr ⟨_, rfl⟩
          · split
            · exact Or.inr ⟨_, rfl⟩
            · split
              · exact Or.inr ⟨_, rfl⟩
              · split
                · exact Or.inr ⟨_, rfl⟩
                · exact Or.inl rfl

/-- C20: for every heap, every pointer argument and every type pointer, after
`TranslateDataTypeGDALtoPostGIS` the string at every address that existed before
the call, the caller's buffer included, is what it was; the heap is the old heap,
followed on success by one new block; and the code string, when one is made, sits
at a new address that only the function's own copy of the parameter holds. -/
theorem TranslateDataTypeGDALtoPostGIS_frame (h : Heap) (p : Option Ptr)
    (mem : Option (List Nat)) :
    (∀ q, q < h.blocks.length →
      callerString (TranslateDataTypeGDALtoPostGIS h p mem).heap q = callerString h q) ∧
    (∃ added, (TranslateDataTypeGDALtoPostGIS h p mem).heap.blocks = h.blocks ++ added ∧
      added.length ≤ 1) ∧
    ((TranslateDataTypeGDALtoPostGIS h p mem).ret = false →
      (TranslateDataTypeGDALtoPostGIS h p mem).heap = h ∧
      (TranslateDataTypeGDALtoPostGIS h p mem).pszDataType = p) ∧
    ((TranslateDataTypeGDALtoPostGIS h p mem).ret = true →
      (TranslateDataTypeGDALtoPostGIS h p mem).pszDataType = some h.blocks.length ∧
      callerString h h.blocks.length = none) := by
  rcases encoder_heap h p mem with hr | ⟨code, hr⟩
  · rw [hr]
    refine ⟨fun _ _ => rfl, ⟨[], by simp, by simp⟩, fun _ => ⟨rfl, rfl⟩, ?_⟩
    intro hc; simp at hc
  · rw [hr]
    refine ⟨?_, ⟨[code], rfl, by simp⟩, ?_, fun _ => ⟨rfl, ?_⟩⟩
    · intro q hq
      simp only [callerString, List.get?_eq_getElem?]
      exact List.getElem?_append_left hq
    · intro hc; simp at hc
    · simp [callerString]

/-- Witness of C20: a success branch, reached with a type pointer that points to
the text `GDT_Float64`; the caller's buffer at address 0 still holds `old`. -/
theorem TranslateDataTypeGDALtoPostGIS_frame_witness :
    (TranslateDataTypeGDALtoPostGIS { blocks := [lit "old"] } (some 0)
        (some (lit "GDT_Float64" ++ [0]))).ret = true ∧
    callerString (TranslateDataTypeGDALtoPostGIS { blocks := [lit "old"] } (some 0)
        (some (lit "GDT_Float64" ++ [0]))).heap 0 = some (lit "old") ∧
    (TranslateDataTypeGDALtoPostGIS { blocks := [lit "old"] } (some 0)
        (some (lit "GDT_Float64" ++ [0]))).pszDataType = some 1 :=
  ⟨by decide,
   (TranslateDataTypeGDALtoPostGIS_frame { blocks := [lit "old"] } (some 0)
      (some (lit "GDT_Float64" ++ [0]))).1 0 (by decide),
   ((TranslateDataTypeGDALtoPostGIS_frame { blocks := [lit "old"] } (some 0)
      (some (lit "GDT_Float64" ++ [0]))).2.2.2 (by decide)).1⟩


/-! ## Safety of the truncation -/

/-- Every position the back-up loop moves past holds a byte above 127. -/
theorem backupLoop_continue (v : CString) (n : Nat) :
    ∀ i, backupLoop v n < i → i ≤ n → v.getD (i - 1) 0 > 127 := by
  induction n with
  | zero => intro i h1 h2; omega
  | succ k ih =>
    intro i h1 h2
    rw [backupLoop] at h1
    split at h1
    · rename_i hk
      by_cases hi : i = k + 1
      · subst hi; simpa using hk
      · exact ih i h1 (by omega)
    · omega

/-- The loop is left at the value `backupLoop` computes: one more pass through the
test changes nothing. -/
theorem backupStep_backupLoop (v : CString) (n : Nat) :
    backupStep v (backupLoop v n) = backupLoop v n := by
  unfold backupStep
  split
  · rename_i hc
    obtain ⟨hpos, hbyte⟩ := hc
    have hend := backupLoop_end v n (backupLoop v n - 1) (by omega)
    omega
  · rfl

/-- The loop reaches the value `backupLoop` computes after at most `n` passes. -/
theorem backupStep_iterate (v : CString) (n : Nat) :
    ∃ k, k ≤ n ∧ (backupStep v)^[k] n = backupLoop v n := by
  induction n with
  | zero => exact ⟨0, le_refl _, rfl⟩
  | succ n ih =>
    by_cases hb : v.getD n 0 > 127
    · obtain ⟨k, hk, hit⟩ := ih
      refine ⟨k + 1, by omega, ?_⟩
      have hstep : backupStep v (n + 1) = n := by
        unfold backupStep
        rw [if_pos ⟨by omega, by simpa using hb⟩]
        rfl
      rw [Function.iterate_succ_apply, hstep, hit, backupLoop, if_pos hb]
    · exact ⟨0, by omega, by rw [backupLoop, if_neg hb]; rfl⟩

/-- C19: when the value is cut (maxChars > 0 and more code points than maxChars)
and `byteLen * maxChars` fits a 32-bit `int`: the divisor, the code-point count,
is positive; the product and the quotient are computed without wrap-around; the
proportional length `n0 = byteLen * maxChars / charLen` is below the byte length;
the loop ends after at most `n0` passes at a length `nf` with `0 <= nf <= n0`;
every index the loop inspects lies inside the value; and the bytes handed to the
escaper are the first `nf` bytes, a proper prefix of the value. -/
theorem truncation_is_safe (v : CString) (m : Int) (ht : truncationApplies v m)
    (hfit : (v.length : Int) * m < 2147483648) :
    0 < CPLStrlenUTF8 v ∧
    wrapInt32 ((v.length : Int) * m) = (v.length : Int) * m ∧
    ∃ n0 nf : Nat,
      n0 = v.length * m.toNat / CPLStrlenUTF8 v ∧
      nf = backupLoop v n0 ∧
      finalSrcLen v m = (nf : Int) ∧
      nf ≤ n0 ∧ n0 < v.length ∧
      (∀ i, nf < i → i ≤ n0 → i - 1 < v.length ∧ v.getD (i - 1) 0 > 127) ∧
      (∀ i, nf = i + 1 → i < v.length ∧ v.getD i 0 ≤ 127) ∧
      (∃ k, k ≤ n0 ∧ (backupStep v)^[k] n0 = nf ∧ backupStep v nf = nf) ∧
      keptBytes v m = v.take nf ∧
      keptBytes v m <+: v ∧ keptBytes v m ≠ v ∧
      (keptBytes v m).length < v.length := by
  obtain ⟨hfin, hlt⟩ := finalSrcLen_of_truncation v m ht hfit
  have hule := CPLStrlenUTF8_le_length v
  have hm := ht.1
  have hlen1 : (v.length : Int) ≤ (v.length : Int) * m := by
    have : (0 : Int) ≤ (v.length : Int) := Int.ofNat_nonneg _
    nlinarith
  have hlen31 : (v.length : Int) < 2147483648 := lt_of_le_of_lt hlen1 hfit
  have hwu : wrapInt32 (CPLStrlenUTF8 v) = (CPLStrlenUTF8 v : Int) :=
    wrapInt32_eq_self _ (by omega) (by omega)
  have hupos : 0 < CPLStrlenUTF8 v := by
    have := ht.2
    rw [hwu] at this
    omega
  have hprod0 : (0 : Int) ≤ (v.length : Int) * m :=
    Int.mul_nonneg (Int.ofNat_nonneg _) (le_of_lt hm)
  have hle := backupLoop_le v (v.length * m.toNat / CPLStrlenUTF8 v)
  have hkept : keptBytes v m
      = v.take (backupLoop v (v.length * m.toNat / CPLStrlenUTF8 v)) := by
    unfold keptBytes
    rw [hfin, toSizeT_natCast _ (by omega)]
  have hklen : (keptBytes v m).length < v.length := by
    rw [hkept, List.length_take]; omega
  refine ⟨hupos, wrapInt32_eq_self _ (by omega) hfit, _, _, rfl, rfl, hfin, hle, hlt,
    ?_, ?_, ?_, hkept, ?_, ?_, hklen⟩
  · intro i h1 h2
    exact ⟨by omega, backupLoop_continue v _ i h1 h2⟩
  · intro i hi
    exact ⟨by omega, backupLoop_end v _ i hi⟩
  · obtain ⟨k, hk, hit⟩ := backupStep_iterate v (v.length * m.toNat / CPLStrlenUTF8 v)
    exact ⟨k, hk, hit, backupStep_backupLoop v _⟩
  · rw [hkept]; exact List.take_prefix _ _
  · intro heq
    rw [heq] at hklen
    exact lt_irrefl _ hklen

/-- Witness of C19: the value `ab` followed by two two-byte characters (U+00E9
twice), six bytes and four code points, cut to three characters: the proportional
length is 4, the loop backs up to 2 and `ab` is handed to the escaper. -/
theorem truncation_is_safe_witness :
    truncationApplies [97, 98, 0xC3, 0xA9, 0xC3, 0xA9] 3 ∧
    keptBytes [97, 98, 0xC3, 0xA9, 0xC3, 0xA9] 3 = [97, 98] ∧
    0 < CPLStrlenUTF8 [97, 98, 0xC3, 0xA9, 0xC3, 0xA9] ∧
    (keptBytes [97, 98, 0xC3, 0xA9, 0xC3, 0xA9] 3).length
      < ([97, 98, 0xC3, 0xA9, 0xC3, 0xA9] : CString).length :=
  ⟨by decide, by decide,
   (truncation_is_safe [97, 98, 0xC3, 0xA9, 0xC3, 0xA9] 3 (by decide) (by decide)).1,
   by
    obtain ⟨_, _, _, _, _, _, _, _, _, _, _, _, _, _, _, h⟩ :=
      truncation_is_safe [97, 98, 0xC3, 0xA9, 0xC3, 0xA9] 3 (by decide) (by decide)
    exact h⟩


/-! ## The literal returned -/

/-- The literal is the opening quote, what the escaper wrote when it is
appended, and the closing quote. -/
theorem quotedLiteral_eq (flag : Bool) (r : EscapeOutcome) :
    quotedLiteral flag r
      = 39 :: ((if flag = true ∧ r.nError ≠ 0 then [] else r.dest) ++ [39]) := by
  unfold quotedLiteral
  cases flag <;> by_cases hE : r.nError = 0 <;> simp [hE]

/-- A literal is returned exactly when the length is not negative and the buffer
size is positive, and it is then the text built from the escaper output. -/
theorem EscapeString_eq_some_iff (flag : Bool) (escape : Escaper) (v : CString) (m : Int)
    (lit : CString) :
    EscapeString flag escape v m = some lit ↔
      (0 ≤ finalSrcLen v m ∧ 0 < destBufferSize (finalSrcLen v m)) ∧
      lit = quotedLiteral flag (escape (keptBytes v m)) := by
  simp only [EscapeString]
  by_cases h : 0 ≤ finalSrcLen v m ∧ 0 < destBufferSize (finalSrcLen v m)
  · rw [if_pos h]
    constructor
    · intro e
      exact ⟨h, (Option.some.inj e).symm⟩
    · rintro ⟨_, rfl⟩
      rfl
  · rw [if_neg h]
    constructor
    · intro e
      cases e
    · rintro ⟨h2, _⟩
      exact absurd h2 h

/-- No literal is returned exactly when the length is negative or the buffer size
is not positive. -/
theorem EscapeString_eq_none_iff (flag : Bool) (escape : Escaper) (v : CString) (m : Int) :
    EscapeString flag escape v m = none ↔
      ¬ (0 ≤ finalSrcLen v m ∧ 0 < destBufferSize (finalSrcLen v m)) := by
  simp only [EscapeString]
  by_cases h : 0 ≤ finalSrcLen v m ∧ 0 < destBufferSize (finalSrcLen v m)
  · rw [if_pos h]
    constructor
    · intro e
      cases e
    · intro h2
      exact absurd h h2
  · rw [if_neg h]
    exact ⟨fun _ => h, fun _ => rfl⟩

/-- When the value is not cut, the length is the byte length as an `int`. -/
theorem finalSrcLen_of_not_truncation (v : CString) (m : Int) (ht : ¬ truncationApplies v m) :
    finalSrcLen v m = wrapInt32 v.length := by
  unfold truncationApplies at ht
  unfold finalSrcLen
  simp only []
  rw [if_neg ht]

/-- The length and the buffer size are in range when the value has fewer than
2^30 bytes and either is not cut or `byteLen * maxChars` fits an `int`. -/
theorem buffer_in_range (v : CString) (m : Int) (hlen : v.length < 1073741824)
    (h : ¬ truncationApplies v m ∨ (v.length : Int) * m < 2147483648) :
    0 ≤ finalSrcLen v m ∧ 0 < destBufferSize (finalSrcLen v m) := by
  by_cases ht : truncationApplies v m
  · have hfit : (v.length : Int) * m < 2147483648 := by
      rcases h with h | h
      · exact absurd ht h
      · exact h
    obtain ⟨hfin, hlt⟩ := finalSrcLen_of_truncation v m ht hfit
    have hle := backupLoop_le v (v.length * m.toNat / CPLStrlenUTF8 v)
    rw [hfin]
    generalize backupLoop v (v.length * m.toNat / CPLStrlenUTF8 v) = n at hle ⊢
    generalize v.length * m.toNat / CPLStrlenUTF8 v = q at hle hlt
    unfold destBufferSize wrapInt32
    omega
  · rw [finalSrcLen_of_not_truncation v m ht]
    unfold destBufferSize wrapInt32
    omega

/-- A literal is returned when the value has fewer than 2^30 bytes and either is
not cut or `byteLen * maxChars` fits an `int`. -/
theorem EscapeString_returns (flag : Bool) (escape : Escaper) (v : CString) (m : Int)
    (hlen : v.length < 1073741824)
    (h : ¬ truncationApplies v m ∨ (v.length : Int) * m < 2147483648) :
    EscapeString flag escape v m = some (quotedLiteral flag (escape (keptBytes v m))) :=
  (EscapeString_eq_some_iff flag escape v m _).mpr ⟨buffer_in_range v m hlen h, rfl⟩

/-- The length computed for `longAsciiValue` and maxChars = 30000 is negative. -/
theorem finalSrcLen_longAsciiValue : finalSrcLen longAsciiValue 30000 = -23687 := by
  have hlen : longAsciiValue.length = 80000 := by
    rw [longAsciiValue, List.length_replicate]
  have hutf : CPLStrlenUTF8 longAsciiValue = 80000 := by
    have h := CPLStrlenUTF8_replicate_append 80000 []
    rw [List.append_nil] at h
    rw [longAsciiValue, h]; rfl
  unfold finalSrcLen
  rw [hlen, hutf]
  decide

/-- For `longAsciiValue` and maxChars = 30000 the length is negative, the buffer
request is negative too, and no literal is returned, whatever the escaper. -/
theorem EscapeString_overflow_none (flag : Bool) (escape : Escaper) :
    EscapeString flag escape longAsciiValue 30000 = none := by
  rw [EscapeString_eq_none_iff, finalSrcLen_longAsciiValue]
  decide

/-- C6: with the escaper of PostgreSQL (single quotes doubled, backslashes doubled
unless the connection uses standard-conforming strings), for every value, in
particular every value containing a single quote: whenever `EscapeString` returns
a literal, the literal is a payload between two quotes, every maximal run of
single quotes in the payload has even length, and the payload holds two quotes
for each quote handed to the escaper; and a literal is returned whenever the
value has fewer than 2^30 bytes and either is not cut or `byteLen * maxChars`
fits an `int` (otherwise the source has no buffer for the escaper and returns
nothing). -/
theorem EscapeString_no_unescaped_quote (flag std : Bool) (v : CString) (m : Int) :
    (∀ lit, EscapeString flag (pqEscaper std) v m = some lit →
      lit = 39 :: (literalPayload lit ++ [39]) ∧
      (∀ r ∈ quoteRuns (literalPayload lit), Even r) ∧
      (literalPayload lit).count 39 = 2 * (keptBytes v m).count 39) ∧
    (v.length < 1073741824 →
      (¬ truncationApplies v m ∨ (v.length : Int) * m < 2147483648) →
      ∃ lit, EscapeString flag (pqEscaper std) v m = some lit) := by
  refine ⟨?_, fun hlen h => ⟨_, EscapeString_returns flag (pqEscaper std) v m hlen h⟩⟩
  intro lit hlit
  have hE : lit = 39 :: (pqEscapeBytes std (keptBytes v m) ++ [39]) := by
    rw [((EscapeString_eq_some_iff flag (pqEscaper std) v m lit).mp hlit).2, quotedLiteral_eq]
    simp [pqEscaper]
  rw [hE, literalPayload_quoted]
  exact ⟨rfl, quoteRunsFrom_pqEscapeBytes_even std _ 0 (by decide),
    count_quote_pqEscapeBytes std _⟩

/-- Witness of C6: the value `it's`, not cut: the literal returned is `it''s`
between quotes, whose only run of quotes has length 2. -/
theorem EscapeString_no_unescaped_quote_witness :
    39 ∈ ([105, 116, 39, 115] : CString) ∧
    EscapeString true (pqEscaper true) [105, 116, 39, 115] 0
      = some [39, 105, 116, 39, 39, 115, 39] ∧
    quoteRuns (literalPayload [39, 105, 116, 39, 39, 115, 39]) = [2] ∧
    (∀ r ∈ quoteRuns (literalPayload [39, 105, 116, 39, 39, 115, 39]), Even r) :=
  ⟨by decide, by decide, by decide,
   ((EscapeString_no_unescaped_quote true true [105, 116, 39, 115] 0).1
      [39, 105, 116, 39, 39, 115, 39] (by decide)).2.1⟩

/-- C11 (the claim as stated fails): in the descriptor
`PG:host=h password='a "b c" d' user=u` the value is wrapped in single quotes and
contains spaces, but it also contains double quotes; once the single quotes have
become double quotes the tokenizer closes the quoted string at the first inner
quote, and the quoted fragment comes out as the two tokens `password=a b` and
`c d`: the result holds neither the single token `password=a "b c" d` nor
`password=a b c d`. -/
theorem ParseConnectionString_splits_nested_quotes :
    58 ∈ nestedQuoteDescriptor ∧
    nestedQuoteDescriptor
      = lit "PG:host=h password=" ++ [39] ++ (lit "a " ++ [34] ++ lit "b c" ++ [34] ++ lit " d")
          ++ [39] ++ lit " user=u" ∧
    ParseConnectionString nestedQuoteDescriptor
      = some [lit "host=h", lit "password=a b", lit "c d", lit "user=u"] ∧
    ParseConnectionString nestedQuoteDescriptor
      ≠ some [lit "host=h", lit "password=a " ++ [34] ++ lit "b c" ++ [34] ++ lit " d",
              lit "user=u"] ∧
    (ParseConnectionString nestedQuoteDescriptor).map
        (fun toks => toks.contains (lit "password=a " ++ [34] ++ lit "b c" ++ [34] ++ lit " d")
          || toks.contains (lit "password=a b c d"))
      = some false := by
  refine ⟨by decide, by decide, by decide, by decide, by decide⟩

/-- C15 (the claim fails on the code): the integers 1599358023 and 1195660383 are
above every value of the enumeration, and their four bytes, in little-endian and
in big-endian order respectively, are the letters `GDT_`; handed the address of a
variable that holds one of them and is followed in memory by the bytes `Byte` and
a NUL, `TranslateDataTypeGDALtoPostGIS` returns true. -/
theorem TranslateDataTypeGDALtoPostGIS_accepts_spelled_name :
    (∀ t : GDALDataType, t.toNat < 1195660383 ∧ t.toNat < 1599358023) ∧
    int32Bytes false 1599358023 = lit "GDT_" ∧
    int32Bytes true 1195660383 = lit "GDT_" ∧
    (TranslateDataTypeGDALtoPostGIS { blocks := [[]] } (some 0)
      (some (int32Bytes false 1599358023 ++ (lit "Byte" ++ [0])))).ret = true ∧
    (TranslateDataTypeGDALtoPostGIS { blocks := [[]] } (some 0)
      (some (int32Bytes true 1195660383 ++ (lit "Byte" ++ [0])))).ret = true := by
  refine ⟨?_, by decide, by decide, by decide, by decide⟩
  intro t
  cases t <;> decide


end PostGISRaster
